import Mathlib

/-!
Verification development for the talk-essence podcast pipeline
(`src/unnamed/part_001`: the POST route with helpers `parseXiaoyuzhouUrl`,
`downloadAudioToStream`, `transcribeSingleFile`, `transcribeLargeAudio`,
`splitTranscriptIntoChunks`, `summarizeTranscript`).

Modelling conventions:
* JavaScript strings are modelled as Lean `String`; `.length`, `.trim()`,
  `.includes()`, `.startsWith()` and `.split(/([。！？\n]+)/)` are modelled on
  the underlying character list (`String.data`).  All characters appearing in
  the program and in the claims are BMP characters, for which JS UTF-16 code
  unit counts and comparisons agree with Lean character counts and
  comparisons.
* External effects (HTTP calls, the Groq API, ffmpeg, the filesystem) are
  modelled by explicit environments: each provider call or file operation is
  an input of the model, and the model records the trace of calls, emitted
  events and filesystem actions that the route performs.
* JS floating-point arithmetic in the progress formulas is modelled by exact
  natural-number arithmetic with explicit floor division; every concrete
  value appearing in a theorem below is exactly representable, so the model
  agrees with IEEE double evaluation there.
-/

set_option linter.unusedVariables false
set_option maxRecDepth 8192

namespace TalkEssence

/-! ### Character and string helpers (models of JS string primitives) -/

/-- The characters of the sentence-splitting class `[。！？\n]` used by
`splitTranscriptIntoChunks` (line 242). -/
def isBreakChar (c : Char) : Bool :=
  c = '。' || c = '！' || c = '？' || c = '\n'

/-- Whitespace recognised by JS `String.prototype.trim` restricted to the
characters this development manipulates. -/
def isWhite (c : Char) : Bool :=
  c = ' ' || c = '\n' || c = '\t' || c = '\r'

/-- Model of JS `trim()` on the character list: drop whitespace from both
ends. -/
def trimChars (l : List Char) : List Char :=
  ((l.dropWhile isWhite).reverse.dropWhile isWhite).reverse

/-- Model of JS `trim()` on strings. -/
def jsTrim (s : String) : String :=
  ⟨trimChars s.data⟩

/-- Contiguous-sublist search, the model of JS `String.prototype.includes`:
`occursIn needle hay` is true when `needle` occurs contiguously in `hay`. -/
def occursIn (needle : List Char) : List Char → Bool
  | [] => needle.isEmpty
  | c :: t => needle.isPrefixOf (c :: t) || occursIn needle t

/-- Model of JS `hay.includes(needle)`. -/
def jsIncludes (hay needle : String) : Bool :=
  occursIn needle.data hay.data

/-! ### `splitTranscriptIntoChunks` (lines 235–264)

`transcript.split(/([。！？\n]+)/)` with a capture group returns the list of
maximal runs of non-break characters interleaved with the captured maximal
runs of break characters (including empty text pieces at the ends, exactly as
JS does).  `splitSegs` computes that list. -/

def splitSegs : List Char → List (List Char)
  | [] => [[]]
  | c :: cs =>
    match splitSegs cs with
    | [] => [[c]]  -- unreachable: `splitSegs` never returns `[]`
    | t :: rest =>
      if isBreakChar c then
        match t, rest with
        | [], r :: rest2 => [] :: (c :: r) :: rest2
        | _, _ => [] :: [c] :: t :: rest
      else (c :: t) :: rest

/-- The accumulation loop of `splitTranscriptIntoChunks` (lines 244–261):
`sentences` still to process, the mutable `currentChunk`, and the chunks
pushed so far.  An intermediate flush pushes `currentChunk.trim()`
unconditionally (line 251); only the final chunk is guarded by
`if (currentChunk.trim())` (line 259). -/
def chunksLoop (maxC : Nat) : List (List Char) → List Char → List (List Char) → List (List Char)
  | [], current, acc =>
    if trimChars current = [] then acc else acc ++ [trimChars current]
  | s :: rest, current, acc =>
    if maxC < current.length + s.length ∧ 0 < current.length then
      chunksLoop maxC rest s (acc ++ [trimChars current])
    else
      chunksLoop maxC rest (current ++ s) acc

/-- Model of `splitTranscriptIntoChunks(transcript, maxCharsPerChunk)`
(lines 235–264).  A transcript at or below the limit is returned unchanged as
the single chunk (line 238). -/
def splitTranscriptIntoChunks (transcript : String) (maxCharsPerChunk : Nat) : List String :=
  if transcript.length ≤ maxCharsPerChunk then [transcript]
  else (chunksLoop maxCharsPerChunk (splitSegs transcript.data) [] []).map (fun l => ⟨l⟩)

/-! ### The Segmenter inside `transcribeLargeAudio` (lines 147–198)

The ffmpeg `segment` muxer writes files `chunk%03d<ext>`: the index printed
in decimal, zero-padded to a minimum width of three digits.  The code then
lists the transient directory, keeps the names satisfying
`f.startsWith('chunk')` and sorts them with JS `Array.prototype.sort()`,
i.e. lexicographically by code unit (lines 193–197). -/

/-- The fixed chunk window `CHUNK_SIZE = 180` seconds (line 168). -/
def CHUNK_SIZE : Nat := 180

/-- Number of fixed-length windows ffmpeg produces for a probed duration
`d > CHUNK_SIZE`: `⌈d / CHUNK_SIZE⌉`. -/
def numSegments (d : Nat) : Nat := (d + CHUNK_SIZE - 1) / CHUNK_SIZE

/-- Modelled from ffmpeg (external tool): the `%03d` field of the output
pattern `chunk%03d${originalExt}` — the decimal representation zero-padded on
the left to a minimum width of three. -/
def pad3 (i : Nat) : String :=
  ⟨List.replicate (3 - (toString i).length) '0' ++ (toString i).data⟩

/-- The file name ffmpeg gives the `i`-th window (0-based):
`chunk%03d${originalExt}` (line 184). -/
def chunkName (ext : String) (i : Nat) : String :=
  "chunk" ++ pad3 i ++ ext

/-- The chunk files ffmpeg writes for `n` windows, in chronological order. -/
def ffmpegChunkNames (ext : String) (n : Nat) : List String :=
  (List.range n).map (chunkName ext)

/-- Model of `files.filter(f => f.startsWith('chunk'))` (line 195). -/
def chunkFilter (files : List String) : List String :=
  files.filter (fun f => "chunk".data.isPrefixOf f.data)

/-- Model of JS `Array.prototype.sort()` on strings: sorting in lexicographic
code-unit order.  (Any correct sort produces the same list; insertion sort is
used for its library lemmas.) -/
def jsSortStrings (files : List String) : List String :=
  List.insertionSort (· ≤ ·) files

/-- Model of `path.join(tempDir, f)`. -/
def pathJoin (dir f : String) : String := dir ++ "/" ++ f

/-- The ordered segment sequence built from a directory listing
(lines 193–197): filter the `chunk*` names, sort them, and join each onto the
transient directory. -/
def buildSegmentList (tempDir : String) (files : List String) : List String :=
  (jsSortStrings (chunkFilter files)).map (pathJoin tempDir)

/-- The chronological segment sequence: the `i`-th window of the audio is the
file `chunk%03d<ext>`, `i = 0, …, n-1`. -/
def chronologicalSegments (tempDir ext : String) (n : Nat) : List String :=
  (List.range n).map (fun i => pathJoin tempDir (chunkName ext i))

/-- Error classes of the Segmenter step: `ffprobe` failure (line 159) and
ffmpeg split failure (line 186) are both rethrown and end the job. -/
inductive SegError where
  | probeFailed
  | segmentationFailed
deriving DecidableEq, Repr

/-- The segment-building part of `transcribeLargeAudio` (lines 155–198) as a
function of the probed duration (`.error` for an `ffprobe` failure), the
ffmpeg split outcome, and the directory listing `readdirAsync` returns.
`duration ≤ CHUNK_SIZE` yields the single original input file (line 172);
otherwise the split runs and the listing is filtered and sorted. -/
def segmenterSegments (probe : Except String Nat) (splitRes : Except String Unit)
    (inputPath tempDir : String) (listing : List String) :
    Except SegError (List String) :=
  match probe with
  | .error _ => .error .probeFailed
  | .ok duration =>
    if duration ≤ CHUNK_SIZE then .ok [inputPath]
    else
      match splitRes with
      | .error _ => .error .segmentationFailed
      | .ok _ => .ok (buildSegmentList tempDir listing)

/-! ### The Transcript Assembler loop of `transcribeLargeAudio` (lines 200–227)

For `totalChunks = n` segments, the loop reports
`Math.floor(30 + i * (55 / n))` when segment `i` starts (lines 209–213) and
`30 + Math.floor(((i + 1) / n) * 50)` when it completes (lines 223–224), and
appends each segment's text plus `'\n'` to the accumulated transcript
(line 220). -/

/-- Progress reported when segment `i` (0-based) of `n` starts:
`Math.floor(30 + i * (55 / n))` (lines 209–213). -/
def segStartProgress (n i : Nat) : Nat := 30 + i * 55 / n

/-- Progress reported when segment `i` (0-based) of `n` completes:
`30 + Math.floor(((i + 1) / n) * 50)` (line 223). -/
def segEndProgress (n i : Nat) : Nat := 30 + (i + 1) * 50 / n

/-- The sequential transcription loop over segments (lines 204–225), with
`k` iterations remaining and `i` the current segment index (the loop runs
`i = 0, …, n-1`, so `k = n - i` throughout): returns the list of progress
values passed to `onProgress`, in order, and either the accumulated
transcript or the error of the failing segment (a segment failure aborts the
loop after its start report). -/
def assembleAux (n : Nat) (texts : Nat → Except String String) :
    Nat → Nat → String → List Nat × Except String String
  | 0, _, acc => ([], .ok acc)
  | k + 1, i, acc =>
    match texts i with
    | .error e => ([segStartProgress n i], .error e)
    | .ok t =>
      let r := assembleAux n texts k (i + 1) (acc ++ t ++ "\n")
      (segStartProgress n i :: segEndProgress n i :: r.1, r.2)

/-- The transcription loop started on `n` segments with an empty accumulator
(lines 201–227). -/
def assembleRun (n : Nat) (texts : Nat → Except String String) :
    List Nat × Except String String :=
  assembleAux n texts n 0 ""

/-- All of `transcribeLargeAudio` (lines 147–232): segment the audio, then
drive the loop; `texts i` is the transcription outcome for segment `i`.
Returns the emitted progress values and the outcome. -/
def transcribeLargeAudioRun (probe : Except String Nat) (splitRes : Except String Unit)
    (inputPath tempDir : String) (listing : List String)
    (texts : Nat → Except String String) : List Nat × Except String String :=
  match probe with
  | .error e => ([], .error e)
  | .ok duration =>
    if duration ≤ CHUNK_SIZE then assembleRun 1 texts
    else
      match splitRes with
      | .error e => ([], .error e)
      | .ok _ => assembleRun (buildSegmentList tempDir listing).length texts

/-! ### `transcribeSingleFile` retry loop (lines 107–144) -/

/-- A provider error as classified by lines 123–128: `isNetwork` is the
disjunction of the `ECONNRESET`/`ETIMEDOUT`/`ENOTFOUND` cause codes and the
`ECONNRESET`/`fetch failed` message tests. -/
structure TransError where
  isNetwork : Bool
  msg : String
deriving DecidableEq, Repr

/-- The backoff before retrying after (1-based) attempt `a`:
`Math.pow(2, attempt - 1) * 1000` milliseconds (line 131). -/
def backoffDelay (a : Nat) : Nat := 2 ^ (a - 1) * 1000

/-- The retry loop of `transcribeSingleFile` (lines 112–143) from (1-based)
attempt `a`: `res k` is the outcome of attempt `k`.  Returns the number of
attempts made, the list of backoff delays slept, and the outcome.  A network
error with `attempt < maxRetries` sleeps and retries; anything else is
rethrown at once (line 139); the `throw` after the loop (line 143) is
unreachable for `maxRetries ≥ 1`. -/
def transcribeSingleAux (maxRetries : Nat) (res : Nat → Except TransError String) :
    Nat → Nat × List Nat × Except TransError String
  | a =>
    if h : a ≤ maxRetries then
      match res a with
      | .ok t => (a, [], .ok t)
      | .error e =>
        if e.isNetwork ∧ a < maxRetries then
          let r := transcribeSingleAux maxRetries res (a + 1)
          (r.1, backoffDelay a :: r.2.1, r.2.2)
        else (a, [], .error e)
    else (a - 1, [], .error ⟨false, "Max retries reached for transcription"⟩)
termination_by a => maxRetries + 1 - a

/-- `transcribeSingleFile` with its default `maxRetries = 3` (line 107),
starting at attempt 1. -/
def transcribeSingleRun (res : Nat → Except TransError String) :
    Nat × List Nat × Except TransError String :=
  transcribeSingleAux 3 res 1

/-! ### `summarizeTranscript` (lines 266–456)

Provider calls are modelled by an environment `env : Nat → CallRes` giving
the outcome of the `k`-th chat-completion call the function performs
(0-based, in program order).  The model records which model name each call
used, the `send`-visible notices, and the returned result or thrown
message. -/

/-- The model pair of lines 18–21. -/
def MODELS_PRIMARY : String := "llama-3.3-70b-versatile"

/-- The fallback model of lines 18–21. -/
def MODELS_FALLBACK : String := "llama-3.1-8b-instant"

/-- The chunking threshold of line 338. -/
def CHUNK_THRESHOLD : Nat := 15000

/-- An error thrown by a chat-completion call, as the code inspects it:
`status429` models `e?.status === 429`, `rateCode` models
`e?.code === 'rate_limit_exceeded'`, `msg` models `e.message`. -/
structure ApiError where
  status429 : Bool
  rateCode : Bool
  msg : String
deriving DecidableEq, Repr

/-- The rate-limit test `e?.status === 429 || e?.code === 'rate_limit_exceeded'`
(lines 370 and 419). -/
def isRateLimited (e : ApiError) : Bool := e.status429 || e.rateCode

deriving instance DecidableEq for Except

/-- Outcome of one chat-completion call: `ok content` models a response whose
`choices[0]?.message?.content` is `content` (`""` when absent); `fail e`
models a thrown error. -/
inductive CallRes where
  | ok (content : String)
  | fail (e : ApiError)
deriving DecidableEq, Repr

/-- The environment of provider outcomes, indexed by call order. -/
abbrev CallEnv := Nat → CallRes

/-- The character class `[\d\w\.]` of the retry-after regex (line 420). -/
def isHintChar (c : Char) : Bool :=
  c.isAlphanum || c = '_' || c = '.'

/-- Model of `msg.match(/try again in ([\d\w\.]+)/)`: the leftmost position
where the literal `"try again in "` is followed by at least one class
character yields the maximal run of class characters after it. -/
def extractAfterLit : List Char → Option (List Char)
  | [] => none
  | c :: t =>
    if "try again in ".data.isPrefixOf (c :: t) then
      let cap := ((c :: t).drop 13).takeWhile isHintChar
      if cap = [] then extractAfterLit t else some cap
    else extractAfterLit t

/-- The retry-after hint extracted from an error message (lines 420 and 447). -/
def extractRetryHint (msg : String) : Option String :=
  (extractAfterLit msg.data).map (fun l => ⟨l⟩)

/-- The `QuotaExhausted`-class message thrown by the outer catch on a 429
status (line 449): the hint defaults to `'一会儿'` (line 448). -/
def quotaMsg (hint : Option String) : String :=
  "今日额度已耗尽，请 " ++ hint.getD "一会儿" ++ " 后重试。"

/-- The `SummarizationFailed`-class message of line 454, with the
`'未知错误'` default for an empty underlying message. -/
def failMsg (m : String) : String :=
  "文本分析失败: " ++ (if m = "" then "未知错误" else m)

/-- The outer catch of `summarizeTranscript` (lines 442–455) applied to the
escaping error: only `e?.status === 429` selects the quota message. -/
def summarizeCatch (e : ApiError) : String :=
  if e.status429 then quotaMsg (extractRetryHint e.msg) else failMsg e.msg

/-- The caller-visible `send` payloads of `summarizeTranscript`, all with
`stage: 'summarizing'`.  `render` below gives the exact message strings. -/
inductive SumEvt where
  | longTextNotice (kChars : Nat)
  | chunkProgress (i total : Nat)
  | fallbackNoticeChunk (i : Nat)
  | mergeNotice
  | fallbackNoticeDirect (hint : Option String)
deriving DecidableEq, Repr

namespace SumEvt

/-- The message strings of lines 343–346, 357–360, 371–374, 385–388 and
423–426. -/
def render : SumEvt → String
  | .longTextNotice k => "检测到长文本（" ++ toString k ++ "K 字），正在分段处理..."
  | .chunkProgress i total =>
      "正在分析第 " ++ toString (i + 1) ++ "/" ++ toString total ++ " 段..."
  | .fallbackNoticeChunk i => "模型限流，切换备用模型处理第 " ++ toString (i + 1) ++ " 段..."
  | .mergeNotice => "正在整合全部内容..."
  | .fallbackNoticeDirect hint =>
      "主力模型速率受限(429)，正在切换为备用模型(8B)... (预计恢复: " ++
        hint.getD "一段时间" ++ ")"

/-- Which notices announce the fallback model (the claims'
"caller-visible notice naming the fallback"). -/
def isFallbackNotice : SumEvt → Bool
  | .fallbackNoticeChunk _ => true
  | .fallbackNoticeDirect _ => true
  | _ => false

end SumEvt

/-- `{ type, summary, highlights }` as returned by lines 405–407 / 437–439. -/
structure SummaryResult where
  type : String
  summary : String
  highlights : List String
deriving DecidableEq, Repr

/-- Split a character list at newlines (the line decomposition the `m` flag
of the highlight regex induces). -/
def linesOf : List Char → List (List Char)
  | [] => [[]]
  | c :: cs =>
    match linesOf cs with
    | [] => [[c]]  -- unreachable: `linesOf` never returns `[]`
    | h :: t => if c = '\n' then [] :: h :: t else (c :: h) :: t

/-- A line matching `^[\*\-]\s+(.*)$` yields its capture: a `*` or `-`
marker, at least one whitespace character, then the rest of the line. -/
def bulletCapture (l : List Char) : Option (List Char) :=
  match l with
  | [] => none
  | c :: rest =>
    if c = '*' || c = '-' then
      if rest.takeWhile isWhite = [] then none
      else some (rest.dropWhile isWhite)
    else none

/-- Model of the highlight extraction
`summary.match(/^[\*\-]\s+(.*)$/gm)?.slice(0, 3).map(s => s.replace(/^[\*\-]\s+/, ''))`
(lines 406 and 438). -/
def extractHighlights (summary : String) : List String :=
  (((linesOf summary.data).filterMap bulletCapture).take 3).map (fun l => ⟨l⟩)

/-- JS `x || d` for strings: the default replaces the empty string. -/
def orDefault (s d : String) : String := if s = "" then d else s

/-- Build the returned `{ type: 'universal', summary, highlights }` from a
final call's content, with the `|| '生成失败'` default (lines 402–407 and
435–439). -/
def mkSummaryResult (content : String) : SummaryResult :=
  let summary := orDefault content "生成失败"
  ⟨"universal", summary, extractHighlights summary⟩

/-- Result of the per-chunk loop (lines 355–382): the index of the next
provider call, the calls made, the notices sent, and either the collected
chunk summaries or the error escaping the loop. -/
structure ChunkLoopOut where
  nextCall : Nat
  calls : List (String × CallRes)
  sends : List SumEvt
  out : Except ApiError (List String)
deriving DecidableEq, Repr

/-- The per-chunk loop (lines 355–382) over the remaining chunks, with chunk
index `i`, call counter `k`, and accumulators.  A rate-limited primary call
sends the chunk fallback notice and retries once on the fallback model; a
fallback failure or a non-rate-limit failure escapes to the outer catch. -/
def chunkLoop (env : CallEnv) (total : Nat) :
    List String → Nat → Nat → List (String × CallRes) → List SumEvt →
    List String → ChunkLoopOut
  | [], _, k, calls, sends, sums => ⟨k, calls, sends, .ok sums⟩
  | _ :: rest, i, k, calls, sends, sums =>
    let sends := sends ++ [.chunkProgress i total]
    match env k with
    | .ok c =>
        chunkLoop env total rest (i + 1) (k + 1)
          (calls ++ [(MODELS_PRIMARY, env k)]) sends (sums ++ [c])
    | .fail e =>
      if isRateLimited e then
        let sends := sends ++ [.fallbackNoticeChunk i]
        let calls := calls ++ [(MODELS_PRIMARY, env k), (MODELS_FALLBACK, env (k + 1))]
        match env (k + 1) with
        | .ok c => chunkLoop env total rest (i + 1) (k + 2) calls sends (sums ++ [c])
        | .fail e2 => ⟨k + 2, calls, sends, .error e2⟩
      else ⟨k + 1, calls ++ [(MODELS_PRIMARY, env k)], sends, .error e⟩

/-- Full outcome of `summarizeTranscript`: provider calls in order (model
name and outcome), the `send`-visible events, and the returned result or the
thrown message. -/
structure SumOut where
  calls : List (String × CallRes)
  sends : List SumEvt
  result : Except String SummaryResult
deriving DecidableEq, Repr

/-- Model of `summarizeTranscript(transcript, …)` (lines 266–456) under the
provider environment `env`.  Length at most `CHUNK_THRESHOLD` summarizes
directly with a single fallback retry on rate-limiting (lines 409–440);
otherwise the transcript is chunked, each chunk is summarized with the same
fallback policy, and one final reduce call on the primary model — with no
fallback of its own (line 401) — produces the document. -/
def summarizeRun (transcript : String) (env : CallEnv) : SumOut :=
  if transcript.length ≤ CHUNK_THRESHOLD then
    match env 0 with
    | .ok c => ⟨[(MODELS_PRIMARY, env 0)], [], .ok (mkSummaryResult c)⟩
    | .fail e =>
      if isRateLimited e then
        let notice := SumEvt.fallbackNoticeDirect (extractRetryHint e.msg)
        let calls := [(MODELS_PRIMARY, env 0), (MODELS_FALLBACK, env 1)]
        match env 1 with
        | .ok c => ⟨calls, [notice], .ok (mkSummaryResult c)⟩
        | .fail e2 => ⟨calls, [notice], .error (summarizeCatch e2)⟩
      else ⟨[(MODELS_PRIMARY, env 0)], [], .error (summarizeCatch e)⟩
  else
    let chunks := splitTranscriptIntoChunks transcript 8000
    let intro := SumEvt.longTextNotice ((transcript.length + 500) / 1000)
    let lp := chunkLoop env chunks.length chunks 0 0 [] [intro] []
    match lp.out with
    | .error e => ⟨lp.calls, lp.sends, .error (summarizeCatch e)⟩
    | .ok _ =>
      let sends := lp.sends ++ [.mergeNotice]
      let k := lp.nextCall
      match env k with
      | .ok c => ⟨lp.calls ++ [(MODELS_PRIMARY, env k)], sends, .ok (mkSummaryResult c)⟩
      | .fail e => ⟨lp.calls ++ [(MODELS_PRIMARY, env k)], sends, .error (summarizeCatch e)⟩

/-! ### The `POST` route (lines 460–569)

The route is modelled as a function from an environment of stage outcomes to
the immediate HTTP status and the ordered list of side-effect actions the
job performs: creating and removing the transient directory, and enqueueing
stream events.  The summarizing heartbeat timer (lines 520–523) fires on
wall-clock time and is modelled separately by `hbRun` below; its events all
carry stage `summarizing`. -/

/-- Environment of one request: whether `request.json()` succeeds, the `url`
field of the body (`none` models a missing field), whether an API key is
present, and the outcomes of each downstream effect. -/
structure JobEnv where
  jsonOk : Bool
  url : Option String
  hasKey : Bool
  parseRes : Except String (String × String)
  downloadRes : Except String String
  probe : Except String Nat
  splitRes : Except String Unit
  listing : List String
  segText : Nat → Except String String
  callEnv : CallEnv

/-- The URL guard `url?.includes('xiaoyuzhou')` (line 472); a missing field
is falsy. -/
def urlValid : Option String → Bool
  | none => false
  | some u => jsIncludes u "xiaoyuzhou"

/-- The stream-level catch normalizes recognized authentication failures
(lines 531–540); other messages pass through. -/
def normalizeError (m : String) : String :=
  if jsIncludes m "401" || jsIncludes m "invalid_api_key" then
    "API Key 无效或已过期，请检查后重试 (401 Unauthorized)"
  else m

/-- Events enqueued on the response stream. -/
inductive Evt where
  | progress (stage : String) (p : Nat)
  | message (m : SumEvt)
  | done (title transcript audioUrl : String) (res : SummaryResult)
  | error (msg : String)
deriving DecidableEq, Repr

/-- Side-effect actions of a job, in program order. -/
inductive Action where
  | mkTempDir
  | rmTempDir
  | emit (e : Evt)
deriving DecidableEq, Repr

/-- The transient directory `path.join(os.tmpdir(), 'amy-podcast-' + uuid)`
(line 482); its exact name plays no role in the claims. -/
def TEMP_DIR : String := "/tmp/amy-podcast-session"

/-- Immediate HTTP status and ordered action list of one `POST` request. -/
structure PostOut where
  status : Nat
  actions : List Action
deriving DecidableEq, Repr

/-- The body of the stream `start` callback (lines 476–554): create the
transient directory, run the pipeline emitting events, and always remove the
directory in the `finally` block. -/
def streamActions (env : JobEnv) : List Action :=
  .mkTempDir ::
  .emit (.progress "parsing" 1) :: .emit (.progress "parsing" 5) ::
  match env.parseRes with
  | .error m => [.emit (.error (normalizeError m)), .rmTempDir]
  | .ok (audioUrl, title) =>
    .emit (.progress "downloading" 10) ::
    match env.downloadRes with
    | .error m => [.emit (.error (normalizeError m)), .rmTempDir]
    | .ok ext =>
      .emit (.progress "downloading" 25) :: .emit (.progress "transcribing" 30) ::
      let tr := transcribeLargeAudioRun env.probe env.splitRes
        (pathJoin TEMP_DIR ("input" ++ ext)) TEMP_DIR env.listing env.segText
      (tr.1.map (fun p => Action.emit (.progress "transcribing" p))) ++
      match tr.2 with
      | .error m => [.emit (.error (normalizeError m)), .rmTempDir]
      | .ok transcript =>
        .emit (.progress "summarizing" 85) ::
        let so := summarizeRun transcript env.callEnv
        (so.sends.map (fun m => Action.emit (.message m))) ++
        match so.result with
        | .error m => [.emit (.error (normalizeError m)), .rmTempDir]
        | .ok res => [.emit (.done title transcript audioUrl res), .rmTempDir]

/-- Model of `POST` (lines 460–569).  A body that fails to parse returns 500
with no side effects (lines 559–568, with `tempDir` still `''`); a missing
key returns 401 (line 468); an invalid URL returns 400 (line 472).  Otherwise
the stream starts and `streamActions` runs. -/
def postRun (env : JobEnv) : PostOut :=
  if ¬ env.jsonOk then ⟨500, []⟩
  else if ¬ env.hasKey then ⟨401, []⟩
  else if ¬ urlValid env.url then ⟨400, []⟩
  else ⟨200, streamActions env⟩

/-- Whether the transient directory exists after replaying `acts` from a
state where it does not exist. -/
def dirExists (acts : List Action) : Bool :=
  acts.foldl (fun b a => match a with
    | .mkTempDir => true
    | .rmTempDir => false
    | _ => b) false

/-- Count a kind of action. -/
def countMk (acts : List Action) : Nat :=
  acts.countP (fun a => match a with | .mkTempDir => true | _ => false)

/-- Count of directory removals. -/
def countRm (acts : List Action) : Nat :=
  acts.countP (fun a => match a with | .rmTempDir => true | _ => false)

/-- Terminal events: `done` and `error`. -/
def Evt.isTerminal : Evt → Bool
  | .done _ _ _ _ => true
  | .error _ => true
  | _ => false

/-- Whether an action list contains a `done` event. -/
def hasDoneEvt (acts : List Action) : Bool :=
  acts.any (fun a => match a with | .emit (.done _ _ _ _) => true | _ => false)

/-- Whether an action list contains an `error` event. -/
def hasErrorEvt (acts : List Action) : Bool :=
  acts.any (fun a => match a with | .emit (.error _) => true | _ => false)

/-- Stage order of the state machine, for ordering statements: `parsing`,
`downloading`, `transcribing`, `summarizing` (messages and heartbeats
included), then `done`; `error` above all. -/
def Evt.stageRank : Evt → Nat
  | .progress "parsing" _ => 0
  | .progress "downloading" _ => 1
  | .progress "transcribing" _ => 2
  | .progress _ _ => 3
  | .message _ => 3
  | .done _ _ _ _ => 4
  | .error _ => 5

/-- The events of an action list, in order. -/
def evtsOf (acts : List Action) : List Evt :=
  acts.filterMap (fun a => match a with | .emit e => some e | _ => none)

/-- Count the events of a given stage rank. -/
def countStage (acts : List Action) (r : Nat) : Nat :=
  (evtsOf acts).countP (fun e => e.stageRank = r)

/-- Modelled from the spec: "non-empty Markdown containing a top-level
heading" — some line of the document begins with `#`.  (The code nowhere
enforces this; the definition exists to compare the spec's words with what
the code guarantees.) -/
def hasTopLevelHeading (s : String) : Bool :=
  (linesOf s.data).any (fun l => l.headI = '#')

/-! ### The summarizing heartbeat (lines 517–523)

Every 3 seconds the orchestrator sets
`progress = Math.min(progress + Math.random() * 0.2, 98)` starting from 85
and sends `Math.floor(progress)`.  The random increments are modelled as an
arbitrary list of rationals. -/

/-- The reported heartbeat values for a list of increments, starting from
`p`. -/
def hbRun : ℚ → List ℚ → List Int
  | _, [] => []
  | p, d :: ds =>
    let p2 := min (p + d) 98
    ⌊p2⌋ :: hbRun p2 ds

/-- The heartbeat reports of a summarizing phase (initial value 85,
line 517). -/
def heartbeatReports (incs : List ℚ) : List Int :=
  hbRun 85 incs

/-! ### Predicates used by the theorem statements -/

/-- Every terminal event in the action list is eventually followed by the
removal of the transient directory. -/
def cleanupAfterTerminal (acts : List Action) : Prop :=
  ∀ pre e suf, acts = pre ++ Action.emit e :: suf → e.isTerminal = true →
    Action.rmTempDir ∈ suf

/-- Discipline of a provider-call trace: a fallback-model call appears only
immediately after a rate-limited primary-model call, and at most once per
such failure. -/
inductive GoodCalls : List (String × CallRes) → Prop where
  | nil : GoodCalls []
  | prim (r : CallRes) (rest : List (String × CallRes)) :
      GoodCalls rest → GoodCalls ((MODELS_PRIMARY, r) :: rest)
  | fb (e : ApiError) (r : CallRes) (rest : List (String × CallRes)) :
      isRateLimited e = true → GoodCalls rest →
      GoodCalls ((MODELS_PRIMARY, CallRes.fail e) :: (MODELS_FALLBACK, r) :: rest)

/-- Number of caller-visible fallback notices in a send trace. -/
def fallbackNoticeCount (sends : List SumEvt) : Nat :=
  sends.countP SumEvt.isFallbackNotice

/-- Number of calls made on the fallback model. -/
def fallbackCallCount (calls : List (String × CallRes)) : Nat :=
  calls.countP (fun c => c.1 == MODELS_FALLBACK)

/-- A fully successful concrete environment, used by several witnesses. -/
def happyEnv : JobEnv where
  jsonOk := true
  url := some "https://www.xiaoyuzhou.fm/episode/abc"
  hasKey := true
  parseRes := .ok ("https://media.example/audio.m4a", "一期播客")
  downloadRes := .ok ".m4a"
  probe := .ok 100
  splitRes := .ok ()
  listing := []
  segText := fun _ => .ok "大家好"
  callEnv := fun _ => .ok "# 标题\n\n* 要点一"

/-- An invalid-URL request with no API key. -/
def badUrlNoKeyEnv : JobEnv where
  jsonOk := true
  url := some "https://example.com/episode"
  hasKey := false
  parseRes := .error ""
  downloadRes := .error ""
  probe := .error ""
  splitRes := .error ""
  listing := []
  segText := fun _ => .error ""
  callEnv := fun _ => .ok ""

/-- An invalid-URL request with an API key present. -/
def badUrlEnv : JobEnv where
  jsonOk := true
  url := some "https://example.com/episode"
  hasKey := true
  parseRes := .error ""
  downloadRes := .error ""
  probe := .error ""
  splitRes := .error ""
  listing := []
  segText := fun _ => .error ""
  callEnv := fun _ => .ok ""

/-- A successful environment whose provider answer is plain prose: no line
of the summary starts with `#`. -/
def c9Env : JobEnv where
  jsonOk := true
  url := some "https://www.xiaoyuzhou.fm/episode/abc"
  hasKey := true
  parseRes := .ok ("https://media.example/audio.m4a", "一期播客")
  downloadRes := .ok ".m4a"
  probe := .ok 100
  splitRes := .ok ()
  listing := []
  segText := fun _ => .ok "大家好"
  callEnv := fun _ => .ok "你好"

/-- A provider that always answers with a code-only rate limit
(`error.code === 'rate_limit_exceeded'` but no HTTP 429 status). -/
def rateCodeEnv : CallEnv := fun _ => CallRes.fail ⟨false, true, "limited"⟩

/-- A provider whose first call is HTTP-429 rate-limited and whose later
calls succeed. -/
def reduceLoopEnvFirst429 : CallEnv
  | 0 => CallRes.fail ⟨true, false, "r"⟩
  | _ + 1 => CallRes.ok "y"

/-- The per-chunk loop as `summarizeTranscript` starts it on a long
transcript (line 355, with the long-text notice of line 343 already
sent). -/
def reduceLoop (t : String) (env : CallEnv) : ChunkLoopOut :=
  chunkLoop env (splitTranscriptIntoChunks t 8000).length (splitTranscriptIntoChunks t 8000)
    0 0 [] [SumEvt.longTextNotice ((t.length + 500) / 1000)] []

/-! ## Theorems -/

/-! ### Structure of `splitSegs` -/

theorem splitSegs_cons_nonbreak {c : Char} {l : List Char} (hc : isBreakChar c = false)
    {t : List Char} {rest : List (List Char)} (h : splitSegs l = t :: rest) :
    splitSegs (c :: l) = (c :: t) :: rest := by
  simp only [splitSegs, h, hc]
  simp

theorem splitSegs_cons_break_text {c : Char} {l : List Char} (hc : isBreakChar c = true)
    {a : Char} {t' : List Char} {rest : List (List Char)}
    (h : splitSegs l = (a :: t') :: rest) :
    splitSegs (c :: l) = [] :: [c] :: (a :: t') :: rest := by
  simp only [splitSegs, h, hc]
  simp

theorem splitSegs_cons_break_merge {c : Char} {l : List Char} (hc : isBreakChar c = true)
    {r : List Char} {rest2 : List (List Char)} (h : splitSegs l = [] :: r :: rest2) :
    splitSegs (c :: l) = [] :: (c :: r) :: rest2 := by
  simp only [splitSegs, h, hc]
  simp

theorem splitSegs_cons_break_single {c : Char} {l : List Char} (hc : isBreakChar c = true)
    (h : splitSegs l = [[]]) :
    splitSegs (c :: l) = [[], [c], []] := by
  simp only [splitSegs, h, hc]
  simp

/-- Structural invariant of the JS split with captures: the result is
nonempty, starts with a (possibly empty) run of non-break characters, every
further element is a pure text piece or a nonempty break run, and the second
element (when present) is a nonempty break run. -/
theorem splitSegs_struct (l : List Char) :
    ∃ t rest, splitSegs l = t :: rest ∧
      (∀ c ∈ t, isBreakChar c = false) ∧
      (∀ s ∈ rest,
        (∀ c ∈ s, isBreakChar c = false) ∨ (s ≠ [] ∧ ∀ c ∈ s, isBreakChar c = true)) ∧
      (rest = [] ∨ (rest.headI ≠ [] ∧ ∀ c ∈ rest.headI, isBreakChar c = true)) := by
  induction l with
  | nil => exact ⟨[], [], rfl, by simp, by simp, Or.inl rfl⟩
  | cons c cs ih =>
    obtain ⟨t, rest, hs, htext, helem, hsecond⟩ := ih
    rcases hb : isBreakChar c with _ | _
    · refine ⟨c :: t, rest, splitSegs_cons_nonbreak hb hs, ?_, helem, hsecond⟩
      intro x hx
      rcases List.mem_cons.mp hx with hx | hx
      · subst hx; exact hb
      · exact htext x hx
    · rcases t with _ | ⟨a, t'⟩
      · rcases rest with _ | ⟨r, rest2⟩
        · refine ⟨[], [[c], []], splitSegs_cons_break_single hb hs, by simp, ?_, ?_⟩
          · intro s hsm
            rcases List.mem_cons.mp hsm with hsm | hsm
            · subst hsm
              exact Or.inr ⟨by simp, by simpa using hb⟩
            · simp only [List.mem_singleton] at hsm
              subst hsm
              exact Or.inl (by simp)
          · exact Or.inr ⟨by simp, by simpa using hb⟩
        · rcases hsecond with hsecond | ⟨hne, hbr⟩
          · cases hsecond
          · simp only [List.headI] at hne hbr
            refine ⟨[], (c :: r) :: rest2, splitSegs_cons_break_merge hb hs, by simp, ?_, ?_⟩
            · intro s hsm
              rcases List.mem_cons.mp hsm with hsm | hsm
              · subst hsm
                refine Or.inr ⟨by simp, ?_⟩
                intro x hx
                rcases List.mem_cons.mp hx with hx | hx
                · subst hx; exact hb
                · exact hbr x hx
              · exact helem s (List.mem_cons_of_mem _ hsm)
            · refine Or.inr ⟨by simp, ?_⟩
              simp only [List.headI]
              intro x hx
              rcases List.mem_cons.mp hx with hx | hx
              · subst hx; exact hb
              · exact hbr x hx
      · refine ⟨[], [c] :: (a :: t') :: rest, splitSegs_cons_break_text hb hs, by simp, ?_, ?_⟩
        · intro s hsm
          rcases List.mem_cons.mp hsm with hsm | hsm
          · subst hsm
            exact Or.inr ⟨by simp, by simpa using hb⟩
          · rcases List.mem_cons.mp hsm with hsm | hsm
            · subst hsm
              exact Or.inl htext
            · exact helem s hsm
        · exact Or.inr ⟨by simp, by simpa using hb⟩

theorem splitSegs_ne_nil (l : List Char) : splitSegs l ≠ [] := by
  obtain ⟨t, rest, hs, -⟩ := splitSegs_struct l
  simp [hs]

/-- Every element of the split is a pure text piece (no break characters) or
a nonempty break run. -/
theorem splitSegs_elem {l : List Char} {s : List Char} (hm : s ∈ splitSegs l) :
    (∀ c ∈ s, isBreakChar c = false) ∨ (s ≠ [] ∧ ∀ c ∈ s, isBreakChar c = true) := by
  obtain ⟨t, rest, hs, htext, helem, -⟩ := splitSegs_struct l
  rw [hs] at hm
  rcases List.mem_cons.mp hm with hm | hm
  · subst hm; exact Or.inl htext
  · exact helem s hm

/-- The split has lost nothing: its concatenation is the original string. -/
theorem splitSegs_join (l : List Char) : (splitSegs l).flatten = l := by
  induction l with
  | nil => simp [splitSegs]
  | cons c cs ih =>
    obtain ⟨t, rest, hs, -, -, -⟩ := splitSegs_struct cs
    rw [hs] at ih
    rcases hb : isBreakChar c with _ | _
    · rw [splitSegs_cons_nonbreak hb hs]
      simp only [List.flatten_cons] at ih ⊢
      simp [ih]
    · rcases t with _ | ⟨a, t'⟩
      · rcases rest with _ | ⟨r, rest2⟩
        · rw [splitSegs_cons_break_single hb hs]
          simp only [List.flatten_cons] at ih ⊢
          simp at ih
          simp [ih]
        · rw [splitSegs_cons_break_merge hb hs]
          simp only [List.flatten_cons] at ih ⊢
          simp at ih ⊢
          exact ih
      · rw [splitSegs_cons_break_text hb hs]
        simp only [List.flatten_cons] at ih ⊢
        simp at ih ⊢
        exact ih

/-- Prepending a run of non-break characters extends the head text piece. -/
theorem splitSegs_replicate_prepend {a : Char} (ha : isBreakChar a = false) (n : Nat)
    {l : List Char} {t : List Char} {rest : List (List Char)} (h : splitSegs l = t :: rest) :
    splitSegs (List.replicate n a ++ l) = (List.replicate n a ++ t) :: rest := by
  induction n with
  | zero => simpa using h
  | succ n ih =>
    rw [List.replicate_succ, List.cons_append, splitSegs_cons_nonbreak ha ih]
    simp

/-! ### Trimming -/

theorem trimChars_eq (l : List Char) :
    trimChars l = List.rdropWhile isWhite (List.dropWhile isWhite l) := by
  simp [trimChars, List.rdropWhile]

theorem trimChars_of_no_white {l : List Char} (h : ∀ c ∈ l, isWhite c = false) :
    trimChars l = l := by
  rw [trimChars_eq]
  have h1 : List.dropWhile isWhite l = l := by
    rcases l with _ | ⟨c, t⟩
    · rfl
    · rw [List.dropWhile_cons_of_neg]
      simp [h c (by simp)]
  rw [h1]
  rw [List.rdropWhile_eq_self_iff]
  intro hl
  simp [h _ (List.getLast_mem hl)]

theorem trimChars_all_white {l : List Char} (h : ∀ c ∈ l, isWhite c = true) :
    trimChars l = [] := by
  rw [trimChars_eq]
  have h1 : List.dropWhile isWhite l = [] := List.dropWhile_eq_nil_iff.mpr h
  rw [h1]
  simp [List.rdropWhile]

/-- `trim` is idempotent, so the chunks the splitter emits are exactly the
trimmed forms of the raw accumulations. -/
theorem trimChars_idem (l : List Char) : trimChars (trimChars l) = trimChars l := by
  rw [trimChars_eq, trimChars_eq]
  rcases hr : List.rdropWhile isWhite (List.dropWhile isWhite l) with _ | ⟨x, xs⟩
  · simp [List.rdropWhile]
  · obtain ⟨s, hsuf⟩ := List.rdropWhile_prefix isWhite (List.dropWhile isWhite l)
    rw [hr] at hsuf
    have hxhead : ¬ isWhite ((List.dropWhile isWhite l).get ⟨0, by
        rw [← hsuf]; simp⟩) = true :=
      List.dropWhile_get_zero_not isWhite l (by rw [← hsuf]; simp)
    have hx : (List.dropWhile isWhite l).get ⟨0, by rw [← hsuf]; simp⟩ = x := by
      have hm : List.dropWhile isWhite l = x :: (xs ++ s) := by
        rw [← hsuf]; simp
      simp [hm]
    rw [hx] at hxhead
    have h2 : List.dropWhile isWhite (x :: xs) = x :: xs := by
      rw [List.dropWhile_cons_of_neg hxhead]
    rw [h2, ← hr, List.rdropWhile_idempotent]

/-! ### The chunk-accumulation loop -/

/-- Behaviour of `chunksLoop`: the chunks pushed are the trims of a sequence
of raw accumulations `raws` plus (when its trim is nonempty) a final
accumulation `fin`; the raw accumulations concatenate to the processed input;
and every raw accumulation either fits the limit, is a single input element
(class `S`), or is empty. -/
theorem chunksLoop_spec (maxC : Nat) (S : List Char → Prop) :
    ∀ (segs : List (List Char)) (current : List Char) (acc : List (List Char)),
    (∀ s ∈ segs, S s) →
    (current.length ≤ maxC ∨ S current ∨ current = []) →
    ∃ (raws : List (List Char)) (fin : List Char),
      chunksLoop maxC segs current acc =
        acc ++ raws.map trimChars ++
          (if trimChars fin = [] then [] else [trimChars fin]) ∧
      raws.flatten ++ fin = current ++ segs.flatten ∧
      (∀ r ∈ raws, r.length ≤ maxC ∨ S r ∨ r = []) ∧
      (fin.length ≤ maxC ∨ S fin ∨ fin = []) := by
  intro segs
  induction segs with
  | nil =>
    intro current acc hsegs hcur
    refine ⟨[], current, ?_, by simp, by simp, hcur⟩
    simp only [chunksLoop]
    split_ifs with h
    · simp
    · simp
  | cons s rest ih =>
    intro current acc hsegs hcur
    simp only [chunksLoop]
    split_ifs with hc
    · obtain ⟨raws, fin, h1, h2, h3, h4⟩ := ih s (acc ++ [trimChars current])
        (fun x hx => hsegs x (List.mem_cons_of_mem _ hx))
        (Or.inr (Or.inl (hsegs s (List.mem_cons_self _ _))))
      refine ⟨current :: raws, fin, ?_, ?_, ?_, h4⟩
      · rw [h1]
        simp [List.append_assoc]
      · simp only [List.flatten_cons, List.append_assoc] at h2 ⊢
        rw [h2]
      · intro r hr
        rcases List.mem_cons.mp hr with hr | hr
        · subst hr; exact hcur
        · exact h3 r hr
    · have hcur2 : (current ++ s).length ≤ maxC ∨ S (current ++ s) ∨ current ++ s = [] := by
        rcases Nat.lt_or_ge maxC (current.length + s.length) with hlt | hle
        · have hz : current.length = 0 := by
            by_contra hz
            exact hc ⟨hlt, Nat.pos_of_ne_zero hz⟩
          have hnil : current = [] := List.length_eq_zero.mp hz
          subst hnil
          exact Or.inr (Or.inl (by simpa using hsegs s (List.mem_cons_self _ _)))
        · exact Or.inl (by simpa [List.length_append] using hle)
      obtain ⟨raws, fin, h1, h2, h3, h4⟩ := ih (current ++ s) acc
        (fun x hx => hsegs x (List.mem_cons_of_mem _ hx)) hcur2
      refine ⟨raws, fin, h1, ?_, h3, h4⟩
      rw [h2]
      simp [List.append_assoc]


/-! ### Step equations for `chunksLoop` -/

theorem chunksLoop_cons_flush {maxC : Nat} {s current : List Char}
    {rest : List (List Char)} {acc : List (List Char)}
    (hc : maxC < current.length + s.length ∧ 0 < current.length) :
    chunksLoop maxC (s :: rest) current acc =
      chunksLoop maxC rest s (acc ++ [trimChars current]) := by
  simp only [chunksLoop]
  rw [if_pos hc]

theorem chunksLoop_cons_grow {maxC : Nat} {s current : List Char}
    {rest : List (List Char)} {acc : List (List Char)}
    (hc : ¬ (maxC < current.length + s.length ∧ 0 < current.length)) :
    chunksLoop maxC (s :: rest) current acc =
      chunksLoop maxC rest (current ++ s) acc := by
  simp only [chunksLoop]
  rw [if_neg hc]

theorem chunksLoop_nil_push {maxC : Nat} {current : List Char} {acc : List (List Char)}
    (hne : trimChars current ≠ []) :
    chunksLoop maxC [] current acc = acc ++ [trimChars current] := by
  simp only [chunksLoop]
  rw [if_neg hne]

theorem chunksLoop_nil_skip {maxC : Nat} {current : List Char} {acc : List (List Char)}
    (hnil : trimChars current = []) :
    chunksLoop maxC [] current acc = acc := by
  simp only [chunksLoop]
  rw [if_pos hnil]

/-- The chunks of the C5 counterexample transcript: 8000 letters, a newline,
one more letter — the newline is trimmed away at the chunk boundary. -/
theorem c5_cex_chunks :
    splitTranscriptIntoChunks ⟨List.replicate 8000 'a' ++ '\n' :: ['b']⟩ 8000 =
      [⟨List.replicate 8000 'a'⟩, "b"] := by
  have h2 : splitSegs ('\n' :: ['b']) = [[], ['\n'], ['b']] := by decide
  have hsegs : splitSegs (List.replicate 8000 'a' ++ '\n' :: ['b']) =
      [List.replicate 8000 'a', ['\n'], ['b']] := by
    have h := splitSegs_replicate_prepend (a := 'a') (by decide) 8000 h2
    rw [List.append_nil] at h
    exact h
  have htrim : trimChars (List.replicate 8000 'a') = List.replicate 8000 'a' :=
    trimChars_of_no_white (by
      intro c hcm
      rw [List.eq_of_mem_replicate hcm]
      rfl)
  have hlen : (⟨List.replicate 8000 'a' ++ '\n' :: ['b']⟩ : String).length = 8002 := by
    show (List.replicate 8000 'a' ++ '\n' :: ['b']).length = 8002
    rw [List.length_append, List.length_replicate]
    rfl
  unfold splitTranscriptIntoChunks
  rw [hlen, if_neg (by omega)]
  show (chunksLoop 8000 (splitSegs (List.replicate 8000 'a' ++ '\n' :: ['b'])) [] []).map
      (fun l => (⟨l⟩ : String)) = _
  rw [hsegs]
  rw [chunksLoop_cons_grow (by
    rintro ⟨-, hpos⟩
    simp at hpos)]
  rw [List.nil_append]
  rw [chunksLoop_cons_flush (by
    constructor
    · rw [List.length_replicate]
      simp only [List.length_cons, List.length_nil]
      omega
    · rw [List.length_replicate]
      omega)]
  rw [List.nil_append, htrim]
  rw [chunksLoop_cons_grow (by
    rintro ⟨hlt, -⟩
    simp only [List.length_cons, List.length_nil] at hlt
    omega)]
  rw [show (['\n'] ++ ['b'] : List Char) = ['\n', 'b'] from rfl]
  rw [chunksLoop_nil_push (by decide)]
  rw [show trimChars ['\n', 'b'] = ['b'] from by decide]
  rfl

/-- C5 counterexample.  For the transcript of 8000 `a`s, a newline and a `b`
(length 8002 > 8000), the concatenation of the chunks
`splitTranscriptIntoChunks` returns does NOT reconstruct the original
transcript: the newline at the chunk boundary is trimmed away. -/
theorem c5_counterexample :
    String.join (splitTranscriptIntoChunks ⟨List.replicate 8000 'a' ++ '\n' :: ['b']⟩ 8000) ≠
      ⟨List.replicate 8000 'a' ++ '\n' :: ['b']⟩ := by
  rw [c5_cex_chunks]
  intro h
  have hd := congrArg String.data h
  have hjoin : (String.join [(⟨List.replicate 8000 'a'⟩ : String), "b"]).data =
      List.replicate 8000 'a' ++ ['b'] := by
    show ((("" ++ ⟨List.replicate 8000 'a'⟩) ++ "b") : String).data = _
    rw [String.data_append, String.data_append]
    rfl
  rw [hjoin] at hd
  have hlen := congrArg List.length hd
  simp only [List.length_append, List.length_replicate, List.length_cons,
    List.length_nil] at hlen
  omega

/-- C5 (amended).  For every transcript longer than the 8000-character limit,
the chunks are the trims of a partition `raws ++ [fin]` of the transcript
(the final piece is dropped when it trims to nothing), so concatenation
reconstructs the transcript up to the whitespace trimmed at chunk
boundaries; and every piece of the partition either fits the limit or is a
single split element: a sentence with no internal break point, or a pure run
of break characters. -/
theorem c5_amended (t : String) (h : 8000 < t.length) :
    ∃ (raws : List (List Char)) (fin : List Char),
      raws.flatten ++ fin = t.data ∧
      splitTranscriptIntoChunks t 8000 =
        (raws.map fun l => (⟨trimChars l⟩ : String)) ++
          (if trimChars fin = [] then [] else [(⟨trimChars fin⟩ : String)]) ∧
      ∀ r ∈ raws ++ [fin], r.length ≤ 8000 ∨
        (∀ c ∈ r, isBreakChar c = false) ∨ (r ≠ [] ∧ ∀ c ∈ r, isBreakChar c = true) := by
  obtain ⟨raws, fin, h1, h2, h3, h4⟩ := chunksLoop_spec 8000 (fun s => s ∈ splitSegs t.data)
    (splitSegs t.data) [] [] (fun s hs => hs) (Or.inr (Or.inr rfl))
  have hchar : ∀ r : List Char, (r.length ≤ 8000 ∨ r ∈ splitSegs t.data ∨ r = []) →
      r.length ≤ 8000 ∨
        (∀ c ∈ r, isBreakChar c = false) ∨ (r ≠ [] ∧ ∀ c ∈ r, isBreakChar c = true) := by
    intro r hr
    rcases hr with hr | hr | hr
    · exact Or.inl hr
    · exact Or.inr (splitSegs_elem hr)
    · subst hr
      exact Or.inl (by simp)
  refine ⟨raws, fin, ?_, ?_, ?_⟩
  · rw [← splitSegs_join t.data]
    simpa using h2
  · unfold splitTranscriptIntoChunks
    rw [if_neg (by omega), h1]
    rw [List.nil_append, List.map_append, List.map_map]
    congr 1
    split_ifs with hf
    · rfl
    · rfl
  · intro r hr
    rcases List.mem_append.mp hr with hr | hr
    · exact hchar r (h3 r hr)
    · rw [List.mem_singleton] at hr
      subst hr
      exact hchar _ h4

/-- Witness for C5 (amended), at the transcript of 8001 blanks. -/
theorem c5_amended_witness :
    8000 < (⟨List.replicate 8001 ' '⟩ : String).length ∧
    ∃ (raws : List (List Char)) (fin : List Char),
      raws.flatten ++ fin = (⟨List.replicate 8001 ' '⟩ : String).data ∧
      splitTranscriptIntoChunks ⟨List.replicate 8001 ' '⟩ 8000 =
        (raws.map fun l => (⟨trimChars l⟩ : String)) ++
          (if trimChars fin = [] then [] else [(⟨trimChars fin⟩ : String)]) ∧
      ∀ r ∈ raws ++ [fin], r.length ≤ 8000 ∨
        (∀ c ∈ r, isBreakChar c = false) ∨ (r ≠ [] ∧ ∀ c ∈ r, isBreakChar c = true) := by
  have hlen : (⟨List.replicate 8001 ' '⟩ : String).length = 8001 := by
    show (List.replicate 8001 ' ').length = 8001
    rw [List.length_replicate]
  exact ⟨by omega, c5_amended _ (by omega)⟩


/-! ### C10: trimming and whitespace-only chunks -/

/-- The chunks of a newline followed by 8000 letters: the flush at the
chunk boundary pushes the trimmed newline as an EMPTY chunk. -/
theorem c10_cex_chunks :
    splitTranscriptIntoChunks ⟨'\n' :: List.replicate 8000 'a'⟩ 8000 =
      ["", ⟨List.replicate 8000 'a'⟩] := by
  have hA : splitSegs (List.replicate 8000 'a') = [List.replicate 8000 'a'] := by
    have h := splitSegs_replicate_prepend (a := 'a') (by decide) 8000
      (show splitSegs [] = [] :: [] from rfl)
    rw [List.append_nil] at h
    exact h
  have hA2 : splitSegs (List.replicate 8000 'a') =
      ('a' :: List.replicate 7999 'a') :: [] := by
    rw [hA, show (8000 : Nat) = 7999 + 1 from rfl, List.replicate_succ]
  have hsegs : splitSegs ('\n' :: List.replicate 8000 'a') =
      [[], ['\n'], List.replicate 8000 'a'] := by
    have h := splitSegs_cons_break_text (c := '\n') (by decide) hA2
    rw [h, ← List.replicate_succ, show (7999 + 1 : Nat) = 8000 from rfl]
  have htrimA : trimChars (List.replicate 8000 'a') = List.replicate 8000 'a' :=
    trimChars_of_no_white (by
      intro c hcm
      rw [List.eq_of_mem_replicate hcm]
      rfl)
  have hlen : (⟨'\n' :: List.replicate 8000 'a'⟩ : String).length = 8001 := by
    show ('\n' :: List.replicate 8000 'a').length = 8001
    rw [List.length_cons, List.length_replicate]
  unfold splitTranscriptIntoChunks
  rw [hlen, if_neg (by omega)]
  show (chunksLoop 8000 (splitSegs ('\n' :: List.replicate 8000 'a')) [] []).map
      (fun l => (⟨l⟩ : String)) = _
  rw [hsegs]
  rw [chunksLoop_cons_grow (by
    rintro ⟨-, hpos⟩
    simp at hpos)]
  rw [List.append_nil]
  rw [chunksLoop_cons_grow (by
    rintro ⟨hlt, -⟩
    simp only [List.length_nil, List.length_cons] at hlt
    omega)]
  rw [List.nil_append]
  rw [chunksLoop_cons_flush (by
    constructor
    · rw [List.length_replicate]
      simp only [List.length_cons, List.length_nil]
      omega
    · simp only [List.length_cons, List.length_nil]
      omega)]
  rw [List.nil_append]
  rw [show trimChars ['\n'] = [] from by decide]
  rw [chunksLoop_nil_push (by
    rw [htrimA]
    intro hh
    have hc := congrArg List.length hh
    rw [List.length_replicate] at hc
    exact absurd hc (by decide))]
  rw [htrimA]
  rfl

/-- C10 counterexample.  The transcript `'\n' + 'a' * 8000` (length 8001,
above the limit) produces the chunk list `["", "a"*8000]`: the
whitespace-only intermediate chunk is NOT dropped — it is emitted as the
empty string.  Only the final accumulated chunk is guarded by the
emptiness check. -/
theorem c10_counterexample :
    splitTranscriptIntoChunks ⟨'\n' :: List.replicate 8000 'a'⟩ 8000 =
      ["", ⟨List.replicate 8000 'a'⟩] ∧
    ("" : String) ∈ splitTranscriptIntoChunks ⟨'\n' :: List.replicate 8000 'a'⟩ 8000 := by
  refine ⟨c10_cex_chunks, ?_⟩
  rw [c10_cex_chunks]
  exact List.mem_cons_self _ _

/-- The all-blank transcript above both thresholds chunks to nothing. -/
theorem c10_spaces_chunks :
    splitTranscriptIntoChunks ⟨List.replicate 15001 ' '⟩ 8000 = [] := by
  have hS : splitSegs (List.replicate 15001 ' ') = [List.replicate 15001 ' '] := by
    have h := splitSegs_replicate_prepend (a := ' ') (by decide) 15001
      (show splitSegs [] = [] :: [] from rfl)
    rw [List.append_nil] at h
    exact h
  have hlen : (⟨List.replicate 15001 ' '⟩ : String).length = 15001 := by
    show (List.replicate 15001 ' ').length = 15001
    rw [List.length_replicate]
  have htrim : trimChars (List.replicate 15001 ' ') = [] :=
    trimChars_all_white (by
      intro c hcm
      rw [List.eq_of_mem_replicate hcm]
      rfl)
  unfold splitTranscriptIntoChunks
  rw [hlen, if_neg (by omega)]
  show (chunksLoop 8000 (splitSegs (List.replicate 15001 ' ')) [] []).map
      (fun l => (⟨l⟩ : String)) = _
  rw [hS]
  rw [chunksLoop_cons_grow (by
    rintro ⟨-, hpos⟩
    simp at hpos)]
  rw [List.nil_append]
  rw [chunksLoop_nil_skip htrim]
  rfl

/-- C10 (amended).  `splitTranscriptIntoChunks` trims every chunk it emits,
but drops only a whitespace-only FINAL accumulation (intermediate
whitespace-only chunks are emitted as empty strings — see the
counterexample).  There still exists a non-empty transcript longer than the
per-chunk limit — 15001 blanks — for which the function returns the empty
list, and the chunked summarization path then proceeds with zero per-chunk
calls: its only provider call is the final reduce call.  For transcripts at
or below the limit the function returns exactly the untrimmed input. -/
theorem c10_amended :
    (∀ t : String, t.length ≤ 8000 → splitTranscriptIntoChunks t 8000 = [t]) ∧
    (∀ t : String, 8000 < t.length →
      ∀ c ∈ splitTranscriptIntoChunks t 8000, jsTrim c = c) ∧
    (splitTranscriptIntoChunks ⟨List.replicate 15001 ' '⟩ 8000 = [] ∧
      (⟨List.replicate 15001 ' '⟩ : String) ≠ "" ∧
      8000 < (⟨List.replicate 15001 ' '⟩ : String).length) ∧
    (∀ env : CallEnv,
      (summarizeRun ⟨List.replicate 15001 ' '⟩ env).calls = [(MODELS_PRIMARY, env 0)] ∧
      (summarizeRun ⟨List.replicate 15001 ' '⟩ env).sends =
        [SumEvt.longTextNotice 15, SumEvt.mergeNotice]) := by
  have hlen : (⟨List.replicate 15001 ' '⟩ : String).length = 15001 := by
    show (List.replicate 15001 ' ').length = 15001
    rw [List.length_replicate]
  refine ⟨?_, ?_, ⟨c10_spaces_chunks, ?_, by omega⟩, ?_⟩
  · intro t ht
    unfold splitTranscriptIntoChunks
    rw [if_pos ht]
  · intro t ht c hc
    obtain ⟨raws, fin0, h1, h2, h3, h4⟩ := chunksLoop_spec 8000 (fun s => s ∈ splitSegs t.data)
      (splitSegs t.data) [] [] (fun s hs => hs) (Or.inr (Or.inr rfl))
    rw [splitTranscriptIntoChunks, if_neg (by omega), h1] at hc
    rw [List.nil_append, List.map_append, List.map_map] at hc
    rcases List.mem_append.mp hc with hm | hm
    · obtain ⟨r, hr, hrc⟩ := List.mem_map.mp hm
      rw [← hrc]
      show (⟨trimChars (trimChars r)⟩ : String) = ⟨trimChars r⟩
      rw [trimChars_idem]
    · rcases hfi : trimChars fin0 with _ | ⟨hd, td⟩
      · rw [hfi] at hm
        simp at hm
      · rw [hfi] at hm
        rw [if_neg (List.cons_ne_nil _ _)] at hm
        simp only [List.map_cons, List.map_nil, List.mem_singleton] at hm
        subst hm
        show (⟨trimChars (hd :: td)⟩ : String) = ⟨hd :: td⟩
        rw [← hfi, trimChars_idem, hfi]
  · intro hemp
    have hd := congrArg String.data hemp
    have hlen2 := congrArg List.length hd
    simp only [List.length_replicate] at hlen2
    exact absurd hlen2 (by
      show ¬ (15001 = ("" : String).data.length)
      simp)
  · intro env
    unfold summarizeRun
    rw [hlen, if_neg (by norm_num [CHUNK_THRESHOLD]), c10_spaces_chunks]
    rcases henv : env 0 with c | e
    · simp [chunkLoop, henv]
    · simp [chunkLoop, henv]

/-- Witness for C10 (amended): a short transcript is returned untrimmed as
the single chunk. -/
theorem c10_amended_witness : splitTranscriptIntoChunks "hi" 8000 = ["hi"] :=
  c10_amended.1 "hi" (by decide)

/-! ### C1: the Segmenter's chunk-name ordering -/

set_option maxRecDepth 100000 in
/-- For indices below 1000, `%03d` produces exactly the three decimal
digits. -/
theorem pad3_eq_digits : ∀ i < 1000, (pad3 i).data =
    [Nat.digitChar (i / 100), Nat.digitChar (i / 10 % 10), Nat.digitChar (i % 10)] := by
  decide

theorem digitChar_lt_digitChar :
    ∀ e < 10, ∀ d < 10, d < e → Nat.digitChar d < Nat.digitChar e := by decide

/-- Lexicographic list order is preserved by a common prefix. -/
theorem list_lt_append_left (p : List Char) {as bs : List Char} (h : as < bs) :
    p ++ as < p ++ bs := by
  induction p with
  | nil => exact h
  | cons c cs ih => exact List.Lex.cons ih

/-- Lexicographic comparison of two three-digit blocks with the same
suffix. -/
theorem three_digit_lt {x1 x2 x3 y1 y2 y3 : Char} (s : List Char)
    (h : x1 < y1 ∨ (x1 = y1 ∧ (x2 < y2 ∨ (x2 = y2 ∧ x3 < y3)))) :
    (x1 :: x2 :: x3 :: s) < (y1 :: y2 :: y3 :: s) := by
  rcases h with h | ⟨e1, h⟩
  · exact List.Lex.rel h
  · subst e1
    rcases h with h | ⟨e2, h⟩
    · exact List.Lex.cons (List.Lex.rel h)
    · subst e2
      exact List.Lex.cons (List.Lex.cons (List.Lex.rel h))

/-- Below the `%03d` padding width, chunk file names compare in index
order. -/
theorem chunkName_lt (ext : String) {i j : Nat} (hij : i < j) (hj : j < 1000) :
    chunkName ext i < chunkName ext j := by
  rw [String.lt_iff_toList_lt]
  show (chunkName ext i).data < (chunkName ext j).data
  have hdata : ∀ k, (chunkName ext k).data = "chunk".data ++ ((pad3 k).data ++ ext.data) := by
    intro k
    show (("chunk" ++ pad3 k ++ ext : String)).data = _
    rw [String.data_append, String.data_append, List.append_assoc]
  rw [hdata i, hdata j, pad3_eq_digits i (by omega), pad3_eq_digits j hj]
  apply list_lt_append_left
  simp only [List.cons_append, List.nil_append]
  apply three_digit_lt
  have harith : i / 100 < j / 100 ∨ (i / 100 = j / 100 ∧
      (i / 10 % 10 < j / 10 % 10 ∨ (i / 10 % 10 = j / 10 % 10 ∧ i % 10 < j % 10))) := by
    omega
  rcases harith with h1 | ⟨h1, h2 | ⟨h2, h3⟩⟩
  · exact Or.inl (digitChar_lt_digitChar (j / 100) (by omega) (i / 100) (by omega) h1)
  · exact Or.inr ⟨by rw [h1], Or.inl
      (digitChar_lt_digitChar (j / 10 % 10) (by omega) (i / 10 % 10) (by omega) h2)⟩
  · exact Or.inr ⟨by rw [h1], Or.inr ⟨by rw [h2],
      digitChar_lt_digitChar (j % 10) (by omega) (i % 10) (by omega) h3⟩⟩

/-- Every ffmpeg chunk name passes the `startsWith('chunk')` filter. -/
theorem chunkName_isPrefix (ext : String) (i : Nat) :
    "chunk".data.isPrefixOf (chunkName ext i).data = true := by
  rw [List.isPrefixOf_iff_prefix]
  show "chunk".data <+: (("chunk" ++ pad3 i ++ ext : String)).data
  rw [String.data_append, String.data_append, List.append_assoc]
  exact List.prefix_append _ _

theorem chunkFilter_names (ext : String) (n : Nat) :
    chunkFilter (ffmpegChunkNames ext n) = ffmpegChunkNames ext n := by
  apply List.filter_eq_self.mpr
  intro a ha
  obtain ⟨i, -, hi⟩ := List.mem_map.mp ha
  rw [← hi]
  exact chunkName_isPrefix ext i

/-- The chronological name list is sorted when it fits the padding width. -/
theorem chronological_names_sorted (ext : String) {n : Nat} (hn : n ≤ 1000) :
    List.Sorted (· ≤ ·) (ffmpegChunkNames ext n) := by
  unfold ffmpegChunkNames List.Sorted
  rw [List.pairwise_map]
  apply List.Pairwise.imp_of_mem ?_ (List.pairwise_lt_range n)
  intro a b ha hb hab
  exact le_of_lt (chunkName_lt ext hab (by
    have := List.mem_range.mp hb
    omega))

/-- Under ≤ 1000 segments, sorting the chunk-file listing rebuilds the
chronological order. -/
theorem buildSegmentList_eq_chronological (tempDir ext : String) {n : Nat}
    (hn : n ≤ 1000) (listing extra : List String)
    (hperm : listing.Perm (ffmpegChunkNames ext n ++ extra))
    (hextra : ∀ f ∈ extra, "chunk".data.isPrefixOf f.data = false) :
    buildSegmentList tempDir listing = chronologicalSegments tempDir ext n := by
  have hfilter : chunkFilter listing |>.Perm (ffmpegChunkNames ext n) := by
    have h1 := hperm.filter (fun f => "chunk".data.isPrefixOf f.data)
    rw [List.filter_append] at h1
    rw [show List.filter (fun f => "chunk".data.isPrefixOf f.data)
        (ffmpegChunkNames ext n) = ffmpegChunkNames ext n from chunkFilter_names ext n] at h1
    rw [show List.filter (fun f => "chunk".data.isPrefixOf f.data) extra = [] from
      List.filter_eq_nil.mpr (by
        intro a ha
        rw [hextra a ha]
        simp)] at h1
    rw [List.append_nil] at h1
    exact h1
  have hsortperm : jsSortStrings (chunkFilter listing) |>.Perm (ffmpegChunkNames ext n) :=
    (List.perm_insertionSort _ _).trans hfilter
  have hsorted1 : List.Sorted (· ≤ ·) (jsSortStrings (chunkFilter listing)) :=
    List.sorted_insertionSort _ _
  have heq : jsSortStrings (chunkFilter listing) = ffmpegChunkNames ext n :=
    List.eq_of_perm_of_sorted hsortperm hsorted1 (chronological_names_sorted ext hn)
  unfold buildSegmentList
  rw [heq]
  unfold ffmpegChunkNames chronologicalSegments
  rw [List.map_map]
  rfl

/-- C1 counterexample.  At duration 180001 s the split yields 1001 windows,
`chunk999` and `chunk1000` among them, and JS `sort()` — plain lexicographic
order, not a numeric sort — places `chunk1000` before `chunk999`: the
segment sequence the Segmenter builds is NOT in chronological order. -/
theorem c1_counterexample :
    numSegments 180001 = 1001 ∧
    segmenterSegments (.ok 180001) (.ok ()) "/d/input.mp3" "/d"
        (ffmpegChunkNames ".mp3" 1001) ≠
      .ok (chronologicalSegments "/d" ".mp3" 1001) := by
  refine ⟨by norm_num [numSegments, CHUNK_SIZE], ?_⟩
  intro h
  simp only [segmenterSegments] at h
  rw [if_neg (by norm_num [CHUNK_SIZE])] at h
  have hb : buildSegmentList "/d" (ffmpegChunkNames ".mp3" 1001) =
      chronologicalSegments "/d" ".mp3" 1001 := by
    exact Except.ok.inj h
  unfold buildSegmentList at hb
  rw [chunkFilter_names] at hb
  have hinj : Function.Injective (pathJoin "/d") := by
    intro a b hab
    have hd := congrArg String.data hab
    unfold pathJoin at hd
    rw [String.data_append, String.data_append, String.data_append,
      String.data_append] at hd
    exact String.ext (List.append_cancel_left hd)
  have hnames : jsSortStrings (ffmpegChunkNames ".mp3" 1001) =
      (List.range 1001).map (chunkName ".mp3") := by
    apply List.map_injective_iff.mpr hinj
    rw [hb]
    rfl
  have hsorted : List.Sorted (· ≤ ·) ((List.range 1001).map (chunkName ".mp3")) := by
    rw [← hnames]
    exact List.sorted_insertionSort _ _
  have hrel := hsorted.rel_get_of_lt
    (a := ⟨999, by simp⟩) (b := ⟨1000, by simp⟩) (by simp)
  rw [List.get_map, List.get_map, List.get_range, List.get_range] at hrel
  have : ¬ (chunkName ".mp3" 999 ≤ chunkName ".mp3" 1000) := by
    rw [not_le, String.lt_iff_toList_lt]
    decide
  exact this hrel

/-- C1 (amended).  Probed duration at most the 180 s window yields the single
original input file; for longer audio with at most 1000 windows — durations
up to 50 hours — filtering and lexicographically sorting the listing rebuilds
exactly the chronological segment sequence (beyond 1000 windows the `%03d`
zero-padding is exhausted and the lexicographic sort departs from
chronological order — see the counterexample); a probe failure is fatal as
`ProbeFailed`, and a split failure is fatal as `SegmentationFailed`. -/
theorem c1_amended (d : Nat) (inputPath tempDir ext : String)
    (listing extra : List String) (splitRes : Except String Unit) (perr serr : String) :
    (d ≤ 180 →
      segmenterSegments (.ok d) splitRes inputPath tempDir listing = .ok [inputPath]) ∧
    (180 < d → numSegments d ≤ 1000 →
      listing.Perm (ffmpegChunkNames ext (numSegments d) ++ extra) →
      (∀ f ∈ extra, "chunk".data.isPrefixOf f.data = false) →
      segmenterSegments (.ok d) (.ok ()) inputPath tempDir listing =
        .ok (chronologicalSegments tempDir ext (numSegments d))) ∧
    segmenterSegments (.error perr) splitRes inputPath tempDir listing =
      .error .probeFailed ∧
    (180 < d →
      segmenterSegments (.ok d) (.error serr) inputPath tempDir listing =
        .error .segmentationFailed) := by
  refine ⟨?_, ?_, rfl, ?_⟩
  · intro hd
    simp only [segmenterSegments]
    rw [if_pos (show d ≤ CHUNK_SIZE by simp only [CHUNK_SIZE]; omega)]
  · intro hd hn hperm hextra
    simp only [segmenterSegments]
    rw [if_neg (show ¬ d ≤ CHUNK_SIZE by simp only [CHUNK_SIZE]; omega)]
    rw [buildSegmentList_eq_chronological tempDir ext hn listing extra hperm hextra]
  · intro hd
    simp only [segmenterSegments]
    rw [if_neg (show ¬ d ≤ CHUNK_SIZE by simp only [CHUNK_SIZE]; omega)]

/-- Witness for C1 (amended): a 100 s probe returns the input file itself; a
361 s probe with the two chunk files on disk returns them in chronological
order; a failing probe and a failing split are fatal. -/
theorem c1_amended_witness :
    segmenterSegments (.ok 100) (.ok ()) "/d/input.mp3" "/d" [] = .ok ["/d/input.mp3"] ∧
    segmenterSegments (.ok 361) (.ok ()) "/d/input.mp3" "/d"
        (ffmpegChunkNames ".mp3" (numSegments 361) ++ ["input.mp3"]) =
      .ok (chronologicalSegments "/d" ".mp3" (numSegments 361)) ∧
    segmenterSegments (.error "boom") (.ok ()) "/d/input.mp3" "/d" [] =
      .error .probeFailed ∧
    segmenterSegments (.ok 361) (.error "boom") "/d/input.mp3" "/d" [] =
      .error .segmentationFailed := by
  have h := c1_amended 100 "/d/input.mp3" "/d" ".mp3" [] [] (.ok ()) "boom" "boom"
  have h2 := c1_amended 361 "/d/input.mp3" "/d" ".mp3"
    (ffmpegChunkNames ".mp3" (numSegments 361) ++ ["input.mp3"]) ["input.mp3"]
    (.ok ()) "boom" "boom"
  refine ⟨h.1 (by omega), ?_, h.2.2.1, h2.2.2.2 (by omega)⟩
  exact h2.2.1 (by omega) (by norm_num [numSegments, CHUNK_SIZE])
    (List.Perm.refl _) (by decide)

/-! ### C6 and C7: the progress mapping of the Transcript Assembler -/

/-- Every progress value the loop emits is a start or completion value of
some segment index in range. -/
theorem assembleAux_mem (n : Nat) (texts : Nat → Except String String) :
    ∀ (k i : Nat) (acc : String) (v : Nat), v ∈ (assembleAux n texts k i acc).1 →
      ∃ j, i ≤ j ∧ j < i + k ∧
        (v = segStartProgress n j ∨ v = segEndProgress n j) := by
  intro k
  induction k with
  | zero =>
    intro i acc v hv
    simp [assembleAux] at hv
  | succ k ih =>
    intro i acc v hv
    rcases ht : texts i with e | t
    · simp only [assembleAux, ht, List.mem_singleton] at hv
      exact ⟨i, le_refl i, by omega, Or.inl hv⟩
    · simp only [assembleAux, ht, List.mem_cons] at hv
      rcases hv with hv | hv | hv
      · exact ⟨i, le_refl i, by omega, Or.inl hv⟩
      · exact ⟨i, le_refl i, by omega, Or.inr hv⟩
      · obtain ⟨j, hj1, hj2, hj3⟩ := ih (i + 1) (acc ++ t ++ "\n") v hv
        exact ⟨j, by omega, by omega, hj3⟩

theorem segStartProgress_le (n i : Nat) (hi : i < n) : segStartProgress n i ≤ 84 := by
  unfold segStartProgress
  have hn : 0 < n := by omega
  have h1 : i * 55 < 55 * n := by
    calc i * 55 < n * 55 := by
          exact Nat.mul_lt_mul_of_pos_right hi (by omega)
      _ = 55 * n := Nat.mul_comm n 55
  have h2 : i * 55 / n < 55 := (Nat.div_lt_iff_lt_mul hn).mpr h1
  omega

theorem segEndProgress_le (n i : Nat) (hi : i < n) : segEndProgress n i ≤ 80 := by
  unfold segEndProgress
  have hn : 0 < n := by omega
  have h1 : (i + 1) * 50 ≤ n * 50 := Nat.mul_le_mul_right 50 (by omega)
  have h2 : (i + 1) * 50 / n ≤ n * 50 / n := Nat.div_le_div_right h1
  have h3 : n * 50 / n = 50 := Nat.mul_div_cancel_left 50 hn
  omega

/-- C6 counterexample.  With 20 segments the interleaved progress sequence
is NOT monotone: segment 12 starts at `⌊30 + 12·(55/20)⌋ = 63` and completes
at `30 + ⌊13·50/20⌋ = 62` — the reported progress decreases. -/
theorem c6_counterexample :
    ((assembleRun 20 (fun _ => Except.ok "x")).1)[24]? = some 63 ∧
    ((assembleRun 20 (fun _ => Except.ok "x")).1)[25]? = some 62 ∧
    segStartProgress 20 12 = 63 ∧ segEndProgress 20 12 = 62 ∧ (62 : Nat) < 63 := by
  refine ⟨by decide, by decide, by decide, by decide, by decide⟩

/-- C6 (amended).  Every reported transcription progress value lies in
`[30, 84] ⊆ [30, 85]`; completion values are non-decreasing across segments,
start values are non-decreasing across segments, and each completion is at
most the NEXT segment's start — but a segment's completion value can be
below its own start value (see the counterexample), so the interleaved
sequence need not be monotone.  Heartbeat values within the summarizing
stage are non-decreasing. -/
theorem c6_amended :
    (∀ (n : Nat) (texts : Nat → Except String String),
      ∀ v ∈ (assembleRun n texts).1, 30 ≤ v ∧ v ≤ 84) ∧
    (∀ n i : Nat, segEndProgress n i ≤ segEndProgress n (i + 1)) ∧
    (∀ n i : Nat, segStartProgress n i ≤ segStartProgress n (i + 1)) ∧
    (∀ n i : Nat, segEndProgress n i ≤ segStartProgress n (i + 1)) ∧
    (∀ incs : List ℚ, (∀ d ∈ incs, 0 ≤ d) →
      List.Chain' (· ≤ ·) (heartbeatReports incs)) := by
  have hb : ∀ (incs : List ℚ) (p : ℚ), p ≤ 98 → (∀ d ∈ incs, 0 ≤ d) →
      List.Chain' (· ≤ ·) (hbRun p incs) ∧ ∀ v ∈ hbRun p incs, ⌊p⌋ ≤ v := by
    intro incs
    induction incs with
    | nil => intro p hp hd; exact ⟨List.chain'_nil, by simp [hbRun]⟩
    | cons d ds ih =>
      intro p hp hd
      have hd0 : 0 ≤ d := hd d (List.mem_cons_self _ _)
      have hple : p ≤ min (p + d) 98 := le_min (by linarith) hp
      have hp2 : min (p + d) 98 ≤ 98 := min_le_right _ _
      obtain ⟨hch, hlow⟩ := ih (min (p + d) 98) hp2
        (fun x hx => hd x (List.mem_cons_of_mem _ hx))
      refine ⟨?_, ?_⟩
      · show List.Chain' (· ≤ ·) (⌊min (p + d) 98⌋ :: hbRun (min (p + d) 98) ds)
        rw [List.chain'_cons']
        exact ⟨fun b hbm => hlow b (List.mem_of_mem_head? hbm), hch⟩
      · intro v hv
        show ⌊p⌋ ≤ v
        rcases List.mem_cons.mp hv with hv | hv
        · rw [hv]
          exact Int.floor_le_floor hple
        · exact le_trans (Int.floor_le_floor hple) (hlow v hv)
  refine ⟨?_, ?_, ?_, ?_, ?_⟩
  · intro n texts v hv
    obtain ⟨j, -, hj2, hj3⟩ := assembleAux_mem n texts n 0 "" v hv
    rcases hj3 with h | h
    · subst h
      exact ⟨Nat.le_add_right 30 _, segStartProgress_le n j (by omega)⟩
    · subst h
      refine ⟨Nat.le_add_right 30 _, ?_⟩
      have := segEndProgress_le n j (by omega)
      omega
  · intro n i
    unfold segEndProgress
    have := Nat.div_le_div_right (c := n) (Nat.mul_le_mul_right 50 (by omega : i + 1 ≤ i + 1 + 1))
    omega
  · intro n i
    unfold segStartProgress
    have := Nat.div_le_div_right (c := n) (Nat.mul_le_mul_right 55 (by omega : i ≤ i + 1))
    omega
  · intro n i
    unfold segEndProgress segStartProgress
    have := Nat.div_le_div_right (c := n) (Nat.mul_le_mul_left (i + 1) (by omega : 50 ≤ 55))
    omega
  · intro incs hpos
    exact (hb incs 85 (by norm_num) hpos).1

/-- Witness for C6 (amended): a two-segment run reports values within
bounds, and two positive heartbeat increments report monotonically. -/
theorem c6_amended_witness :
    (∀ v ∈ (assembleRun 2 (fun _ => Except.ok "x")).1, 30 ≤ v ∧ v ≤ 84) ∧
    List.Chain' (· ≤ ·) (heartbeatReports [(1 : ℚ) / 10, 1 / 5]) := by
  refine ⟨fun v hv => c6_amended.1 2 _ v hv, c6_amended.2.2.2.2 _ ?_⟩
  intro d hd
  rcases List.mem_cons.mp hd with h | h
  · rw [h]; norm_num
  · rcases List.mem_cons.mp h with h2 | h2
    · rw [h2]; norm_num
    · simp at h2

/-- The loop's progress trace in the all-successful case: for each segment
in order, its start value then its completion value. -/
theorem assembleAux_all_ok (n : Nat) (texts : Nat → Except String String) :
    ∀ (k i : Nat) (acc : String), (∀ j, i ≤ j → j < i + k → ∃ t, texts j = .ok t) →
      (assembleAux n texts k i acc).1 =
        (List.range' i k).bind
          (fun j => [segStartProgress n j, segEndProgress n j]) := by
  intro k
  induction k with
  | zero =>
    intro i acc hok
    simp [assembleAux, List.range']
  | succ k ih =>
    intro i acc hok
    obtain ⟨t, ht⟩ := hok i (le_refl i) (by omega)
    simp only [assembleAux, ht]
    rw [show List.range' i (k + 1) = i :: List.range' (i + 1) k from rfl]
    rw [ih (i + 1) (acc ++ t ++ "\n") (fun j h1 h2 => hok j (by omega) (by omega))]
    rfl

/-- C7 counterexample.  With a single segment the claim predicts the
completion report `30 + 1·55/1 = 85`; the loop reports `[30, 80]`: the
completion formula uses a 50-point span, not the 55-point span. -/
theorem c7_counterexample :
    (assembleRun 1 (fun _ => Except.ok "x")).1 = [30, 80] ∧
    segEndProgress 1 0 = 80 ∧ 30 + (0 + 1) * 55 / 1 = 85 := by
  refine ⟨by decide, by decide, by decide⟩

/-- C7 (amended).  In a fully successful run over `n` segments the loop
reports, for segment `i` in order, the start value `30 + ⌊i·55/n⌋` — equal
shares of the 55-point span — and the completion value `30 + ⌊(i+1)·50/n⌋`:
completions use a 50-POINT span, so the last segment completes at 80, not
85, and transcription progress stays within `[30, 84]`. -/
theorem c7_amended (n : Nat) (texts : Nat → Except String String) (hn : 0 < n)
    (hok : ∀ j < n, ∃ t, texts j = .ok t) :
    (assembleRun n texts).1 =
      (List.range n).bind (fun j => [30 + j * 55 / n, 30 + (j + 1) * 50 / n]) ∧
    segEndProgress n (n - 1) = 80 ∧
    (∀ i < n, 30 ≤ segStartProgress n i ∧ segStartProgress n i ≤ 84 ∧
      30 ≤ segEndProgress n i ∧ segEndProgress n i ≤ 80) := by
  refine ⟨?_, ?_, ?_⟩
  · rw [show (assembleRun n texts) = assembleAux n texts n 0 "" from rfl]
    rw [assembleAux_all_ok n texts n 0 "" (fun j h1 h2 => hok j (by omega))]
    rw [List.range_eq_range']
    rfl
  · unfold segEndProgress
    rw [show n - 1 + 1 = n from by omega]
    rw [Nat.mul_div_cancel_left 50 hn]
  · intro i hi
    exact ⟨Nat.le_add_right 30 _, segStartProgress_le n i hi,
      Nat.le_add_right 30 _, segEndProgress_le n i hi⟩

/-- Witness for C7 (amended): the three-segment all-successful run. -/
theorem c7_amended_witness :
    (assembleRun 3 (fun _ => Except.ok "x")).1 =
      (List.range 3).bind (fun j => [30 + j * 55 / 3, 30 + (j + 1) * 50 / 3]) ∧
    segEndProgress 3 2 = 80 := by
  have h := c7_amended 3 (fun _ => Except.ok "x") (by omega) (fun j hj => ⟨"x", rfl⟩)
  exact ⟨h.1, h.2.1⟩

/-! ### C2 and C8: the orchestrator's transient directory and fast rejection -/

/-- Every run of the stream callback is: create the directory, emit
non-terminal events, emit one terminal event, remove the directory. -/
theorem streamActions_shape (env : JobEnv) :
    ∃ (mid : List Action) (e : Evt),
      streamActions env = Action.mkTempDir :: mid ++ [Action.emit e, Action.rmTempDir] ∧
      e.isTerminal = true ∧
      ∀ a ∈ mid, ∃ e', a = Action.emit e' ∧ e'.isTerminal = false := by
  unfold streamActions
  rcases hp : env.parseRes with m | ⟨audioUrl, title⟩
  · refine ⟨[.emit (.progress "parsing" 1), .emit (.progress "parsing" 5)],
      .error (normalizeError m), by simp, rfl, ?_⟩
    intro a ha
    rcases List.mem_cons.mp ha with h | h
    · exact ⟨_, h, rfl⟩
    · rcases List.mem_singleton.mp h with h
      exact ⟨_, h, rfl⟩
  · rcases hd : env.downloadRes with m | ext
    · refine ⟨[.emit (.progress "parsing" 1), .emit (.progress "parsing" 5),
        .emit (.progress "downloading" 10)],
        .error (normalizeError m), by simp, rfl, ?_⟩
      intro a ha
      rcases List.mem_cons.mp ha with h | h
      · exact ⟨_, h, rfl⟩
      rcases List.mem_cons.mp h with h | h
      · exact ⟨_, h, rfl⟩
      rcases List.mem_singleton.mp h with h
      exact ⟨_, h, rfl⟩
    · rcases htr : (transcribeLargeAudioRun env.probe env.splitRes
          (pathJoin TEMP_DIR ("input" ++ ext)) TEMP_DIR env.listing env.segText).2
        with m | transcript
      · refine ⟨[.emit (.progress "parsing" 1), .emit (.progress "parsing" 5),
          .emit (.progress "downloading" 10), .emit (.progress "downloading" 25),
          .emit (.progress "transcribing" 30)] ++
            ((transcribeLargeAudioRun env.probe env.splitRes
              (pathJoin TEMP_DIR ("input" ++ ext)) TEMP_DIR env.listing env.segText).1.map
                (fun p => Action.emit (.progress "transcribing" p))),
          .error (normalizeError m), ?_, rfl, ?_⟩
        · dsimp only
          rw [htr]
          simp only [List.cons_append, List.append_assoc, List.nil_append]
        · intro a ha
          rcases List.mem_append.mp ha with h | h
          · rcases List.mem_cons.mp h with h | h
            · exact ⟨_, h, rfl⟩
            rcases List.mem_cons.mp h with h | h
            · exact ⟨_, h, rfl⟩
            rcases List.mem_cons.mp h with h | h
            · exact ⟨_, h, rfl⟩
            rcases List.mem_cons.mp h with h | h
            · exact ⟨_, h, rfl⟩
            rcases List.mem_singleton.mp h with h
            exact ⟨_, h, rfl⟩
          · obtain ⟨p, -, hpa⟩ := List.mem_map.mp h
            exact ⟨_, hpa.symm, rfl⟩
      · rcases hso : (summarizeRun transcript env.callEnv).result with m | res
        · refine ⟨[.emit (.progress "parsing" 1), .emit (.progress "parsing" 5),
            .emit (.progress "downloading" 10), .emit (.progress "downloading" 25),
            .emit (.progress "transcribing" 30)] ++
              ((transcribeLargeAudioRun env.probe env.splitRes
                (pathJoin TEMP_DIR ("input" ++ ext)) TEMP_DIR env.listing env.segText).1.map
                  (fun p => Action.emit (.progress "transcribing" p))) ++
              [.emit (.progress "summarizing" 85)] ++
              ((summarizeRun transcript env.callEnv).sends.map
                (fun mm => Action.emit (.message mm))),
            .error (normalizeError m), ?_, rfl, ?_⟩
          · dsimp only
            rw [htr]
            dsimp only
            rw [hso]
            simp only [List.cons_append, List.append_assoc, List.nil_append]
          · intro a ha
            rcases List.mem_append.mp ha with h | h
            · rcases List.mem_append.mp h with h | h
              · rcases List.mem_append.mp h with h | h
                · rcases List.mem_cons.mp h with h | h
                  · exact ⟨_, h, rfl⟩
                  rcases List.mem_cons.mp h with h | h
                  · exact ⟨_, h, rfl⟩
                  rcases List.mem_cons.mp h with h | h
                  · exact ⟨_, h, rfl⟩
                  rcases List.mem_cons.mp h with h | h
                  · exact ⟨_, h, rfl⟩
                  rcases List.mem_singleton.mp h with h
                  exact ⟨_, h, rfl⟩
                · obtain ⟨p, -, hpa⟩ := List.mem_map.mp h
                  exact ⟨_, hpa.symm, rfl⟩
              · rcases List.mem_singleton.mp h with h
                exact ⟨_, h, rfl⟩
            · obtain ⟨mm, -, hma⟩ := List.mem_map.mp h
              exact ⟨_, hma.symm, rfl⟩
        · refine ⟨[.emit (.progress "parsing" 1), .emit (.progress "parsing" 5),
            .emit (.progress "downloading" 10), .emit (.progress "downloading" 25),
            .emit (.progress "transcribing" 30)] ++
              ((transcribeLargeAudioRun env.probe env.splitRes
                (pathJoin TEMP_DIR ("input" ++ ext)) TEMP_DIR env.listing env.segText).1.map
                  (fun p => Action.emit (.progress "transcribing" p))) ++
              [.emit (.progress "summarizing" 85)] ++
              ((summarizeRun transcript env.callEnv).sends.map
                (fun mm => Action.emit (.message mm))),
            .done title transcript audioUrl res, ?_, rfl, ?_⟩
          · dsimp only
            rw [htr]
            dsimp only
            rw [hso]
            simp only [List.cons_append, List.append_assoc, List.nil_append]
          · intro a ha
            rcases List.mem_append.mp ha with h | h
            · rcases List.mem_append.mp h with h | h
              · rcases List.mem_append.mp h with h | h
                · rcases List.mem_cons.mp h with h | h
                  · exact ⟨_, h, rfl⟩
                  rcases List.mem_cons.mp h with h | h
                  · exact ⟨_, h, rfl⟩
                  rcases List.mem_cons.mp h with h | h
                  · exact ⟨_, h, rfl⟩
                  rcases List.mem_cons.mp h with h | h
                  · exact ⟨_, h, rfl⟩
                  rcases List.mem_singleton.mp h with h
                  exact ⟨_, h, rfl⟩
                · obtain ⟨p, -, hpa⟩ := List.mem_map.mp h
                  exact ⟨_, hpa.symm, rfl⟩
              · rcases List.mem_singleton.mp h with h
                exact ⟨_, h, rfl⟩
            · obtain ⟨mm, -, hma⟩ := List.mem_map.mp h
              exact ⟨_, hma.symm, rfl⟩

/-- After any terminal event in a `l ++ [emit t, rm]` trace the removal
follows. -/
theorem cleanupAfterTerminal_concat (l : List Action) (t : Evt) :
    cleanupAfterTerminal (l ++ [Action.emit t, Action.rmTempDir]) := by
  intro pre e suf hsplit hterm
  induction l generalizing pre with
  | nil =>
    rw [List.nil_append] at hsplit
    cases pre with
    | nil =>
      rw [List.nil_append] at hsplit
      injection hsplit with h1 h2
      rw [← h2]
      simp
    | cons b pre2 =>
      rw [List.cons_append] at hsplit
      injection hsplit with h1 h2
      cases pre2 with
      | nil =>
        rw [List.nil_append] at h2
        injection h2 with h3 h4
        simp at h3
      | cons c pre3 =>
        rw [List.cons_append] at h2
        injection h2 with h3 h4
        exact absurd h4.symm (by simp)
  | cons a l2 ih =>
    rw [List.cons_append] at hsplit
    cases pre with
    | nil =>
      rw [List.nil_append] at hsplit
      injection hsplit with h1 h2
      rw [← h2]
      exact List.mem_append_right _ (by simp)
    | cons b pre2 =>
      rw [List.cons_append] at hsplit
      injection hsplit with h1 h2
      exact ih pre2 h2

/-- C2.  The transient directory is created at most once, it never survives
the job (the final directory state is "absent" on every path), whenever it
is created it is created exactly once — as the job's first action — and
removed exactly once, and every terminal event (`done` or `error`) is
followed by the removal of the directory.  Early rejections (malformed body,
missing key, invalid URL) perform no filesystem action at all. -/
theorem c2_cleanup (env : JobEnv) :
    countMk (postRun env).actions ≤ 1 ∧
    dirExists (postRun env).actions = false ∧
    (Action.mkTempDir ∈ (postRun env).actions →
      countMk (postRun env).actions = 1 ∧ countRm (postRun env).actions = 1 ∧
      (postRun env).actions.head? = some Action.mkTempDir) ∧
    cleanupAfterTerminal (postRun env).actions := by
  unfold postRun
  rcases hj : env.jsonOk with _ | _
  · rw [if_pos (by simp [hj])]
    exact ⟨by simp [countMk], rfl, by simp, by intro pre e suf hs ht; simp at hs⟩
  rcases hk : env.hasKey with _ | _
  · rw [if_neg (by simp [hj]), if_pos (by simp [hk])]
    exact ⟨by simp [countMk], rfl, by simp, by intro pre e suf hs ht; simp at hs⟩
  rcases hu : urlValid env.url with _ | _
  · rw [if_neg (by simp [hj]), if_neg (by simp [hk]), if_pos (by simp [hu])]
    exact ⟨by simp [countMk], rfl, by simp, by intro pre e suf hs ht; simp at hs⟩
  · rw [if_neg (by simp [hj]), if_neg (by simp [hk]), if_neg (by simp [hu])]
    obtain ⟨mid, e, hshape, hterm, hmid⟩ := streamActions_shape env
    dsimp only
    simp only [hshape]
    have hmk : countMk (Action.mkTempDir :: mid ++ [Action.emit e, Action.rmTempDir]) = 1 := by
      unfold countMk
      simp only [List.countP_cons, List.countP_append]
      rw [List.countP_eq_zero.mpr (by
        intro a ha
        obtain ⟨e', he', -⟩ := hmid a ha
        simp [he'])]
      simp
    have hrm : countRm (Action.mkTempDir :: mid ++ [Action.emit e, Action.rmTempDir]) = 1 := by
      unfold countRm
      simp only [List.countP_cons, List.countP_append]
      rw [List.countP_eq_zero.mpr (by
        intro a ha
        obtain ⟨e', he', -⟩ := hmid a ha
        simp [he'])]
      simp
    refine ⟨by omega, ?_, fun hm => ⟨hmk, hrm, rfl⟩, ?_⟩
    · unfold dirExists
      rw [show Action.mkTempDir :: mid ++ [Action.emit e, Action.rmTempDir] =
          (Action.mkTempDir :: mid ++ [Action.emit e]) ++ [Action.rmTempDir] from by
        simp]
      rw [List.foldl_append]
      rfl
    · rw [show Action.mkTempDir :: mid ++ [Action.emit e, Action.rmTempDir] =
          (Action.mkTempDir :: mid) ++ [Action.emit e, Action.rmTempDir] from by simp]
      exact cleanupAfterTerminal_concat _ _

/-- Witness for C2 at the fully successful environment. -/
theorem c2_cleanup_witness :
    countMk (postRun happyEnv).actions = 1 ∧ countRm (postRun happyEnv).actions = 1 ∧
    dirExists (postRun happyEnv).actions = false := by
  have h := c2_cleanup happyEnv
  obtain ⟨hc, hm, hiff⟩ := h.2.2.1 (by decide)
  exact ⟨hc, hm, h.2.1⟩

/-- C8 counterexample.  A request with an invalid URL and no API key is
rejected with 401, not 400: the key check precedes the URL check, so not
every invalid-URL request draws the 400 `InvalidInput` rejection. -/
theorem c8_counterexample :
    postRun badUrlNoKeyEnv = ⟨401, []⟩ ∧
    urlValid badUrlNoKeyEnv.url = false ∧ (401 : Nat) ≠ 400 := by
  refine ⟨by decide, by decide, by decide⟩

/-- C8 (amended).  A request whose URL fails the platform check never
creates the transient directory and performs no action at all; it is
rejected with 400 provided the body parses and a key is present (a missing
key is rejected 401 first, a malformed body 500 first). -/
theorem c8_amended (env : JobEnv) (hu : urlValid env.url = false) :
    (postRun env).actions = [] ∧
    Action.mkTempDir ∉ (postRun env).actions ∧
    (env.jsonOk = true → env.hasKey = true → (postRun env).status = 400) := by
  unfold postRun
  rcases hj : env.jsonOk with _ | _
  · rw [if_pos (by simp [hj])]
    exact ⟨rfl, by simp, fun hj2 _ => by simp at hj2⟩
  rcases hk : env.hasKey with _ | _
  · rw [if_neg (by simp [hj]), if_pos (by simp [hk])]
    exact ⟨rfl, by simp, fun _ hk2 => by simp at hk2⟩
  · rw [if_neg (by simp [hj]), if_neg (by simp [hk]), if_pos (by simp [hu])]
    exact ⟨rfl, by simp, fun _ _ => rfl⟩

/-- Witness for C8 (amended): an invalid-URL request with a valid body and
key draws exactly the 400 status with no actions. -/
theorem c8_amended_witness :
    (postRun badUrlEnv).actions = [] ∧ (postRun badUrlEnv).status = 400 := by
  have h := c8_amended badUrlEnv (by decide)
  exact ⟨h.1, h.2.2 rfl rfl⟩

/-! ### C9: the successful event stream -/

/-- The action list of a fully successful stream run, explicitly. -/
theorem streamActions_success {env : JobEnv} {au ti ext transcript : String}
    {res : SummaryResult}
    (hp : env.parseRes = .ok (au, ti)) (hd : env.downloadRes = .ok ext)
    (htr : (transcribeLargeAudioRun env.probe env.splitRes
      (pathJoin TEMP_DIR ("input" ++ ext)) TEMP_DIR env.listing env.segText).2 =
        .ok transcript)
    (hso : (summarizeRun transcript env.callEnv).result = .ok res) :
    streamActions env =
      [Action.mkTempDir, .emit (.progress "parsing" 1), .emit (.progress "parsing" 5),
       .emit (.progress "downloading" 10), .emit (.progress "downloading" 25),
       .emit (.progress "transcribing" 30)] ++
      ((transcribeLargeAudioRun env.probe env.splitRes
        (pathJoin TEMP_DIR ("input" ++ ext)) TEMP_DIR env.listing env.segText).1.map
          (fun p => Action.emit (.progress "transcribing" p))) ++
      [.emit (.progress "summarizing" 85)] ++
      ((summarizeRun transcript env.callEnv).sends.map
        (fun mm => Action.emit (.message mm))) ++
      [.emit (.done ti transcript au res), .rmTempDir] := by
  unfold streamActions
  rw [hp]
  dsimp only
  rw [hd]
  dsimp only
  rw [htr]
  dsimp only
  rw [hso]
  simp only [List.cons_append, List.append_assoc, List.nil_append]

/-- A failure branch of the stream never emits `done`. -/
theorem postRun_done_cases (env : JobEnv)
    (hdone : hasDoneEvt (postRun env).actions = true) :
    ∃ au ti ext transcript res,
      env.parseRes = .ok (au, ti) ∧ env.downloadRes = .ok ext ∧
      (transcribeLargeAudioRun env.probe env.splitRes
        (pathJoin TEMP_DIR ("input" ++ ext)) TEMP_DIR env.listing env.segText).2 =
          .ok transcript ∧
      (summarizeRun transcript env.callEnv).result = .ok res := by
  unfold postRun at hdone
  rcases hj : env.jsonOk with _ | _
  · rw [if_pos (by simp [hj])] at hdone
    simp [hasDoneEvt] at hdone
  rcases hk : env.hasKey with _ | _
  · rw [if_neg (by simp [hj]), if_pos (by simp [hk])] at hdone
    simp [hasDoneEvt] at hdone
  rcases hu : urlValid env.url with _ | _
  · rw [if_neg (by simp [hj]), if_neg (by simp [hk]), if_pos (by simp [hu])] at hdone
    simp [hasDoneEvt] at hdone
  rw [if_neg (by simp [hj]), if_neg (by simp [hk]), if_neg (by simp [hu])] at hdone
  obtain ⟨mid, e, hshape, hterm, hmid⟩ := streamActions_shape env
  have hde : ∃ t1 t2 t3 r4, e = Evt.done t1 t2 t3 r4 := by
    dsimp only at hdone
    rw [hshape] at hdone
    unfold hasDoneEvt at hdone
    rw [List.any_eq_true] at hdone
    obtain ⟨a, ha, hda⟩ := hdone
    rcases List.mem_cons.mp ha with h | h
    · subst h
      simp at hda
    rcases List.mem_append.mp h with h | h
    · obtain ⟨e', he', hnt⟩ := hmid a h
      subst he'
      rcases e' with ⟨st, p⟩ | mm | ⟨t1, t2, t3, r4⟩ | msg
      · simp at hda
      · simp at hda
      · simp [Evt.isTerminal] at hnt
      · simp at hda
    · rcases List.mem_cons.mp h with h | h
      · subst h
        rcases e with ⟨st, p⟩ | mm | ⟨t1, t2, t3, r4⟩ | msg
        · simp at hda
        · simp at hda
        · exact ⟨t1, t2, t3, r4, rfl⟩
        · simp at hda
      · rcases List.mem_singleton.mp h with h
        subst h
        simp at hda
  obtain ⟨t1, t2, t3, r4, hde⟩ := hde
  subst hde
  revert hshape
  unfold streamActions
  rcases hp : env.parseRes with m | ⟨au, ti⟩
  · intro hshape
    dsimp only at hshape
    have hmem : Action.emit (Evt.done t1 t2 t3 r4) ∈
        Action.mkTempDir :: mid ++ [Action.emit (Evt.done t1 t2 t3 r4), Action.rmTempDir] := by
      simp
    rw [← hshape] at hmem
    simp at hmem
  · rcases hd : env.downloadRes with m | ext
    · intro hshape
      dsimp only at hshape
      have hmem : Action.emit (Evt.done t1 t2 t3 r4) ∈
          Action.mkTempDir :: mid ++ [Action.emit (Evt.done t1 t2 t3 r4), Action.rmTempDir] := by
        simp
      rw [← hshape] at hmem
      simp at hmem
    · rcases htr : (transcribeLargeAudioRun env.probe env.splitRes
          (pathJoin TEMP_DIR ("input" ++ ext)) TEMP_DIR env.listing env.segText).2
        with m | transcript
      · intro hshape
        dsimp only at hshape
        rw [htr] at hshape
        dsimp only at hshape
        have hmem : Action.emit (Evt.done t1 t2 t3 r4) ∈
            Action.mkTempDir :: mid ++ [Action.emit (Evt.done t1 t2 t3 r4), Action.rmTempDir] := by
          simp
        rw [← hshape] at hmem
        simp at hmem
      · rcases hso : (summarizeRun transcript env.callEnv).result with m | res
        · intro hshape
          dsimp only at hshape
          rw [htr] at hshape
          dsimp only at hshape
          rw [hso] at hshape
          have hmem : Action.emit (Evt.done t1 t2 t3 r4) ∈
              Action.mkTempDir :: mid ++ [Action.emit (Evt.done t1 t2 t3 r4), Action.rmTempDir] := by
            simp
          rw [← hshape] at hmem
          simp at hmem
        · intro hshape
          exact ⟨au, ti, ext, transcript, res, rfl, rfl, htr, hso⟩

/-- `evtsOf` distributes over append. -/
theorem evtsOf_append (a b : List Action) : evtsOf (a ++ b) = evtsOf a ++ evtsOf b := by
  unfold evtsOf
  rw [List.filterMap_append]

/-- `evtsOf` recovers the events of an emitted block. -/
theorem evtsOf_map_emit {α : Type} (g : α → Evt) (l : List α) :
    evtsOf (l.map (fun x => Action.emit (g x))) = l.map g := by
  induction l with
  | nil => rfl
  | cons h t ih =>
    simp only [List.map_cons]
    show g h :: evtsOf (t.map (fun x => Action.emit (g x))) = g h :: t.map g
    rw [ih]

/-- Each loop iteration appends at least the `'\n'` separator, so the
accumulated transcript grows by at least the remaining iteration count. -/
theorem assembleAux_ok_length (n : Nat) (texts : Nat → Except String String) :
    ∀ (k i : Nat) (acc out : String),
      (assembleAux n texts k i acc).2 = Except.ok out → acc.length + k ≤ out.length := by
  intro k
  induction k with
  | zero =>
    intro i acc out h
    simp only [assembleAux] at h
    rw [Except.ok.inj h]
    omega
  | succ k ih =>
    intro i acc out h
    rcases ht : texts i with e | t
    · simp only [assembleAux] at h
      rw [ht] at h
      simp at h
    · simp only [assembleAux] at h
      rw [ht] at h
      dsimp only at h
      have h2 := ih (i + 1) (acc ++ t ++ "\n") out h
      rw [String.length_append, String.length_append] at h2
      rw [show ("\n" : String).length = 1 from rfl] at h2
      omega

/-- A transcript returned successfully by `transcribeLargeAudio` is
non-empty, provided that, had the audio been split, at least one chunk file
was listed. -/
theorem transcribeRun_ok_ne (probe : Except String Nat) (splitRes : Except String Unit)
    (inputPath tempDir : String) (listing : List String)
    (texts : Nat → Except String String) (transcript : String)
    (hreal : ∀ d, probe = Except.ok d → CHUNK_SIZE < d →
      buildSegmentList tempDir listing ≠ [])
    (h : (transcribeLargeAudioRun probe splitRes inputPath tempDir listing texts).2 =
      Except.ok transcript) :
    transcript ≠ "" := by
  rcases probe with e | d
  · simp [transcribeLargeAudioRun] at h
  · unfold transcribeLargeAudioRun at h
    dsimp only at h
    by_cases hd : d ≤ CHUNK_SIZE
    · rw [if_pos hd] at h
      unfold assembleRun at h
      have h2 := assembleAux_ok_length 1 texts 1 0 "" transcript h
      intro hc
      subst hc
      rw [show ("" : String).length = 0 from rfl] at h2
      omega
    · rw [if_neg hd] at h
      rcases splitRes with e | u
      · simp at h
      · dsimp only at h
        unfold assembleRun at h
        have hne := hreal d rfl (lt_of_not_le hd)
        have hlen := List.length_pos.mpr hne
        have h2 := assembleAux_ok_length (buildSegmentList tempDir listing).length texts
          (buildSegmentList tempDir listing).length 0 "" transcript h
        intro hc
        subst hc
        rw [show ("" : String).length = 0 from rfl] at h2
        omega

/-- Any successful result of `summarizeTranscript` is built by
`mkSummaryResult` from some final call content. -/
theorem summarizeRun_ok_shape (t : String) (env : CallEnv) (res : SummaryResult)
    (h : (summarizeRun t env).result = Except.ok res) :
    ∃ c, res = mkSummaryResult c := by
  unfold summarizeRun at h
  by_cases hl : t.length ≤ CHUNK_THRESHOLD
  · rw [if_pos hl] at h
    rcases h0 : env 0 with c | e
    · rw [h0] at h
      exact ⟨c, (Except.ok.inj h).symm⟩
    · rw [h0] at h
      dsimp only at h
      by_cases hr : isRateLimited e = true
      · rw [if_pos hr] at h
        rcases h1 : env 1 with c | e2
        · rw [h1] at h
          exact ⟨c, (Except.ok.inj h).symm⟩
        · rw [h1] at h
          simp at h
      · rw [if_neg hr] at h
        simp at h
  · rw [if_neg hl] at h
    simp only [CHUNK_THRESHOLD] at h
    split at h
    · simp at h
    · split at h
      · exact ⟨_, (Except.ok.inj h).symm⟩
      · simp at h

/-- The `|| '生成失败'` default keeps the summary non-empty. -/
theorem mkSummaryResult_summary_ne (c : String) : (mkSummaryResult c).summary ≠ "" := by
  show orDefault c "生成失败" ≠ ""
  unfold orDefault
  by_cases h : c = ""
  · rw [if_pos h]
    decide
  · rw [if_neg h]
    exact h

/-- A list whose elements are all equal is sorted. -/
theorem sorted_of_all_eq (c : Nat) (A : List Nat) (hA : ∀ x ∈ A, x = c) :
    List.Sorted (· ≤ ·) A := by
  induction A with
  | nil => exact List.sorted_nil
  | cons a t ih =>
    rw [List.sorted_cons]
    refine ⟨fun b hb => ?_, ih (fun x hx => hA x (List.mem_cons_of_mem a hx))⟩
    rw [hA a (List.mem_cons_self a t), hA b (List.mem_cons_of_mem a hb)]

/-- Sortedness glue for two adjacent blocks. -/
theorem sorted_append_of (l1 l2 : List Nat) (h1 : List.Sorted (· ≤ ·) l1)
    (h2 : List.Sorted (· ≤ ·) l2) (h : ∀ x ∈ l1, ∀ y ∈ l2, x ≤ y) :
    List.Sorted (· ≤ ·) (l1 ++ l2) := by
  rw [List.Sorted, List.pairwise_append]
  exact ⟨h1, h2, h⟩

/-- The rank sequence of a successful stream is sorted: the fixed prefix,
a block of `2`s (transcribing), a `3`, a block of `3`s (summarizing
messages), then the `4` of `done`. -/
theorem sorted_rank_blocks (A B : List Nat) (hA : ∀ x ∈ A, x = 2) (hB : ∀ x ∈ B, x = 3) :
    List.Sorted (· ≤ ·) ([0, 0, 1, 1, 2] ++ A ++ [3] ++ B ++ [4]) := by
  have b0 : ∀ x ∈ ([0, 0, 1, 1, 2] : List Nat), x ≤ 2 := by decide
  have s1 : List.Sorted (· ≤ ·) ([0, 0, 1, 1, 2] ++ A) :=
    sorted_append_of _ _ (by decide) (sorted_of_all_eq 2 A hA)
      (fun x hx y hy => by rw [hA y hy]; exact b0 x hx)
  have b1 : ∀ x ∈ [0, 0, 1, 1, 2] ++ A, x ≤ 2 := by
    intro x hx
    rcases List.mem_append.mp hx with hx | hx
    · exact b0 x hx
    · rw [hA x hx]
  have s2 : List.Sorted (· ≤ ·) ([0, 0, 1, 1, 2] ++ A ++ [3]) :=
    sorted_append_of _ _ s1 (by decide)
      (fun x hx y hy => by
        rcases List.mem_singleton.mp hy with rfl
        exact le_trans (b1 x hx) (by omega))
  have b2 : ∀ x ∈ [0, 0, 1, 1, 2] ++ A ++ [3], x ≤ 3 := by
    intro x hx
    rcases List.mem_append.mp hx with hx | hx
    · exact le_trans (b1 x hx) (by omega)
    · rcases List.mem_singleton.mp hx with rfl
      omega
  have s3 : List.Sorted (· ≤ ·) ([0, 0, 1, 1, 2] ++ A ++ [3] ++ B) :=
    sorted_append_of _ _ s2 (sorted_of_all_eq 3 B hB)
      (fun x hx y hy => by rw [hB y hy]; exact b2 x hx)
  exact sorted_append_of _ _ s3 (by decide)
    (fun x hx y hy => by
      rcases List.mem_singleton.mp hy with rfl
      rcases List.mem_append.mp hx with hx | hx
      · exact le_trans (b2 x hx) (by omega)
      · rw [hB x hx]
        omega)

/-- Rank of a parsing progress report. -/
theorem stageRank_parsing (p : Nat) :
    Evt.stageRank (.progress "parsing" p) = 0 := rfl

/-- Rank of a downloading progress report. -/
theorem stageRank_downloading (p : Nat) :
    Evt.stageRank (.progress "downloading" p) = 1 := rfl

/-- Rank of a transcribing progress report. -/
theorem stageRank_transcribing (p : Nat) :
    Evt.stageRank (.progress "transcribing" p) = 2 := rfl

/-- Rank of a summarizing progress report. -/
theorem stageRank_summarizing (p : Nat) :
    Evt.stageRank (.progress "summarizing" p) = 3 := rfl

/-- Rank of the `done` event. -/
theorem stageRank_done (t1 t2 t3 : String) (r : SummaryResult) :
    Evt.stageRank (.done t1 t2 t3 r) = 4 := rfl

/-- Rank of a summarizing message. -/
theorem stageRank_message (m : SumEvt) : Evt.stageRank (.message m) = 3 := rfl

/-- C9 counterexample.  A fully successful job whose provider answers in
plain prose: the stream emits `done`, but the attached summary contains no
top-level heading — the code nowhere enforces the spec's "Markdown
containing a top-level heading". -/
theorem c9_counterexample :
    hasDoneEvt (postRun c9Env).actions = true ∧
    (summarizeRun "大家好\n" c9Env.callEnv).result =
      Except.ok ⟨"universal", "你好", []⟩ ∧
    hasTopLevelHeading "你好" = false ∧
    (postRun c9Env).actions.all (fun a =>
      match a with
      | Action.emit (Evt.done _ _ _ r) => hasTopLevelHeading r.summary
      | _ => true) = false := by
  decide

/-- C9 (amended).  If a request's stream emits `done` then the parse, the
download, the whole transcription and the summarization all succeeded — the
`done` payload is never partial; the transcript is non-empty (granting that
a run which split the audio found at least one chunk file) and the summary
is non-empty; the stream carries exactly one `done`, no `error`, at least
one progress event of each stage, and its events appear in stage order.
The spec's top-level-heading requirement on the summary is dropped: nothing
in the code enforces it. -/
theorem c9_amended (env : JobEnv)
    (hreal : ∀ d, env.probe = Except.ok d → CHUNK_SIZE < d →
      buildSegmentList TEMP_DIR env.listing ≠ [])
    (hdone : hasDoneEvt (postRun env).actions = true) :
    ∃ au ti ext transcript res,
      env.parseRes = Except.ok (au, ti) ∧
      env.downloadRes = Except.ok ext ∧
      (transcribeLargeAudioRun env.probe env.splitRes
        (pathJoin TEMP_DIR ("input" ++ ext)) TEMP_DIR env.listing env.segText).2 =
          Except.ok transcript ∧
      (summarizeRun transcript env.callEnv).result = Except.ok res ∧
      transcript ≠ "" ∧
      res.summary ≠ "" ∧
      countStage (postRun env).actions 4 = 1 ∧
      countStage (postRun env).actions 5 = 0 ∧
      (1 ≤ countStage (postRun env).actions 0 ∧
       1 ≤ countStage (postRun env).actions 1 ∧
       1 ≤ countStage (postRun env).actions 2 ∧
       1 ≤ countStage (postRun env).actions 3) ∧
      List.Sorted (· ≤ ·) ((evtsOf (postRun env).actions).map Evt.stageRank) := by
  obtain ⟨au, ti, ext, transcript, res, hp, hd, htr, hso⟩ := postRun_done_cases env hdone
  have hacts : (postRun env).actions = streamActions env := by
    unfold postRun at hdone ⊢
    rcases hj : env.jsonOk with _ | _
    · rw [if_pos (by simp [hj])] at hdone
      simp [hasDoneEvt] at hdone
    rcases hk : env.hasKey with _ | _
    · rw [if_neg (by simp [hj]), if_pos (by simp [hk])] at hdone
      simp [hasDoneEvt] at hdone
    rcases hu : urlValid env.url with _ | _
    · rw [if_neg (by simp [hj]), if_neg (by simp [hk]), if_pos (by simp [hu])] at hdone
      simp [hasDoneEvt] at hdone
    · rw [if_neg (by simp [hj]), if_neg (by simp [hk]), if_neg (by simp [hu])]
  have hS := streamActions_success hp hd htr hso
  have hevts : evtsOf (postRun env).actions =
      [Evt.progress "parsing" 1, Evt.progress "parsing" 5, Evt.progress "downloading" 10,
       Evt.progress "downloading" 25, Evt.progress "transcribing" 30] ++
      (transcribeLargeAudioRun env.probe env.splitRes
        (pathJoin TEMP_DIR ("input" ++ ext)) TEMP_DIR env.listing env.segText).1.map
          (fun p => Evt.progress "transcribing" p) ++
      [Evt.progress "summarizing" 85] ++
      (summarizeRun transcript env.callEnv).sends.map (fun mm => Evt.message mm) ++
      [Evt.done ti transcript au res] := by
    rw [hacts, hS]
    simp only [evtsOf_append, evtsOf_map_emit]
    rfl
  refine ⟨au, ti, ext, transcript, res, hp, hd, htr, hso, ?_, ?_, ?_, ?_, ?_, ?_⟩
  · exact transcribeRun_ok_ne env.probe env.splitRes _ TEMP_DIR env.listing env.segText
      transcript hreal htr
  · obtain ⟨c, hc⟩ := summarizeRun_ok_shape transcript env.callEnv res hso
    rw [hc]
    exact mkSummaryResult_summary_ne c
  · unfold countStage
    rw [hevts]
    simp [List.countP_append, List.countP_cons, List.countP_map, Function.comp_def,
      stageRank_parsing, stageRank_downloading, stageRank_transcribing,
      stageRank_summarizing, stageRank_done, stageRank_message,
      List.countP_false, List.countP_true]
  · unfold countStage
    rw [hevts]
    simp [List.countP_append, List.countP_cons, List.countP_map, Function.comp_def,
      stageRank_parsing, stageRank_downloading, stageRank_transcribing,
      stageRank_summarizing, stageRank_done, stageRank_message,
      List.countP_false, List.countP_true]
  · refine ⟨?_, ?_, ?_, ?_⟩ <;>
      (unfold countStage
       rw [hevts]
       simp [List.countP_append, List.countP_cons, List.countP_map, Function.comp_def,
         stageRank_parsing, stageRank_downloading, stageRank_transcribing,
         stageRank_summarizing, stageRank_done, stageRank_message,
         List.countP_false, List.countP_true])
  · rw [hevts]
    simp only [List.map_append, List.map_map]
    rw [show List.map Evt.stageRank
          [Evt.progress "parsing" 1, Evt.progress "parsing" 5,
           Evt.progress "downloading" 10, Evt.progress "downloading" 25,
           Evt.progress "transcribing" 30] = [0, 0, 1, 1, 2] from rfl,
        show List.map Evt.stageRank [Evt.progress "summarizing" 85] = [3] from rfl,
        show List.map Evt.stageRank [Evt.done ti transcript au res] = [4] from rfl]
    refine sorted_rank_blocks _ _ ?_ ?_
    · intro x hx
      obtain ⟨p, hp2, hx⟩ := List.mem_map.mp hx
      rw [← hx]
      rfl
    · intro x hx
      obtain ⟨mm, hm2, hx⟩ := List.mem_map.mp hx
      rw [← hx]
      rfl

/-- Witness for C9 (amended) at the successful concrete environment. -/
theorem c9_amended_witness :
    countStage (postRun c9Env).actions 4 = 1 ∧
    countStage (postRun c9Env).actions 5 = 0 ∧
    1 ≤ countStage (postRun c9Env).actions 2 := by
  obtain ⟨au, ti, ext, transcript, res, hp, hd, htr, hso, htne, hsne, h4, h5, hge, hsort⟩ :=
    c9_amended c9Env
      (fun d hd2 hlt => absurd hlt (by
        rw [← Except.ok.inj hd2]
        decide))
      (by decide)
  exact ⟨h4, h5, hge.2.2.1⟩

/-- Good call traces are closed under concatenation. -/
theorem GoodCalls_append {a b : List (String × CallRes)} (ha : GoodCalls a)
    (hb : GoodCalls b) : GoodCalls (a ++ b) := by
  induction ha with
  | nil => exact hb
  | prim r rest hrest ih => exact GoodCalls.prim r _ ih
  | fb e r rest hrl hrest ih => exact GoodCalls.fb e r _ hrl ih

/-- The primary and fallback model names differ. -/
theorem primary_beq_fallback : (MODELS_PRIMARY == MODELS_FALLBACK) = false := by
  decide

/-- A single primary-model call contributes no fallback-model count. -/
theorem countP_primary_single (r : CallRes) :
    List.countP (fun c => c.1 == MODELS_FALLBACK) [(MODELS_PRIMARY, r)] = 0 := by
  simp [List.countP_cons, primary_beq_fallback]

/-- The per-chunk loop keeps the call trace disciplined: a fallback call
appears only right after a rate-limited primary call. -/
theorem chunkLoop_good (env : CallEnv) (total : Nat) :
    ∀ (chunks : List String) (i k : Nat) (calls : List (String × CallRes))
      (sends : List SumEvt) (sums : List String),
      GoodCalls calls →
      GoodCalls (chunkLoop env total chunks i k calls sends sums).calls := by
  intro chunks
  induction chunks with
  | nil =>
    intro i k calls sends sums hg
    exact hg
  | cons c rest ih =>
    intro i k calls sends sums hg
    simp only [chunkLoop]
    rcases henv : env k with s | e
    · dsimp only
      exact ih (i + 1) (k + 1) _ _ _
        (GoodCalls_append hg (GoodCalls.prim _ _ GoodCalls.nil))
    · dsimp only
      rcases hr : isRateLimited e with _ | _
      · rw [if_neg (by simp)]
        exact GoodCalls_append hg (GoodCalls.prim _ _ GoodCalls.nil)
      · rw [if_pos rfl]
        rcases h2 : env (k + 1) with s2 | e2
        · dsimp only
          exact ih (i + 1) (k + 2) _ _ _
            (GoodCalls_append hg (GoodCalls.fb e _ _ hr GoodCalls.nil))
        · dsimp only
          exact GoodCalls_append hg (GoodCalls.fb e _ _ hr GoodCalls.nil)

/-- The per-chunk loop sends exactly one fallback notice per fallback
call: the counts added to the accumulators balance. -/
theorem chunkLoop_balance (env : CallEnv) (total : Nat) :
    ∀ (chunks : List String) (i k : Nat) (calls : List (String × CallRes))
      (sends : List SumEvt) (sums : List String),
      fallbackNoticeCount (chunkLoop env total chunks i k calls sends sums).sends +
        fallbackCallCount calls =
      fallbackNoticeCount sends +
        fallbackCallCount (chunkLoop env total chunks i k calls sends sums).calls := by
  intro chunks
  induction chunks with
  | nil =>
    intro i k calls sends sums
    rfl
  | cons c rest ih =>
    intro i k calls sends sums
    simp only [chunkLoop]
    rcases henv : env k with s | e
    · dsimp only
      have h := ih (i + 1) (k + 1) (calls ++ [(MODELS_PRIMARY, CallRes.ok s)])
        (sends ++ [SumEvt.chunkProgress i total]) (sums ++ [s])
      have h1 : fallbackCallCount (calls ++ [(MODELS_PRIMARY, CallRes.ok s)]) =
          fallbackCallCount calls := by
        simp [fallbackCallCount, List.countP_append, List.countP_cons,
          primary_beq_fallback]
      have h2 : fallbackNoticeCount (sends ++ [SumEvt.chunkProgress i total]) =
          fallbackNoticeCount sends := by
        simp [fallbackNoticeCount, List.countP_append, List.countP_cons,
          SumEvt.isFallbackNotice]
      omega
    · dsimp only
      rcases hr : isRateLimited e with _ | _
      · rw [if_neg (by simp)]
        dsimp only
        have h1 : fallbackCallCount (calls ++ [(MODELS_PRIMARY, CallRes.fail e)]) =
            fallbackCallCount calls := by
          simp [fallbackCallCount, List.countP_append, List.countP_cons,
            primary_beq_fallback]
        have h2 : fallbackNoticeCount (sends ++ [SumEvt.chunkProgress i total]) =
            fallbackNoticeCount sends := by
          simp [fallbackNoticeCount, List.countP_append, List.countP_cons,
            SumEvt.isFallbackNotice]
        omega
      · rw [if_pos rfl]
        rcases h3 : env (k + 1) with s2 | e2
        · dsimp only
          have h := ih (i + 1) (k + 2)
            (calls ++ [(MODELS_PRIMARY, CallRes.fail e), (MODELS_FALLBACK, CallRes.ok s2)])
            (sends ++ [SumEvt.chunkProgress i total] ++ [SumEvt.fallbackNoticeChunk i])
            (sums ++ [s2])
          have h1 : fallbackCallCount (calls ++
              [(MODELS_PRIMARY, CallRes.fail e), (MODELS_FALLBACK, CallRes.ok s2)]) =
              fallbackCallCount calls + 1 := by
            simp [fallbackCallCount, List.countP_append, List.countP_cons,
              primary_beq_fallback]
          have h2 : fallbackNoticeCount (sends ++ [SumEvt.chunkProgress i total] ++
              [SumEvt.fallbackNoticeChunk i]) = fallbackNoticeCount sends + 1 := by
            simp [fallbackNoticeCount, List.countP_append, List.countP_cons,
              SumEvt.isFallbackNotice]
          omega
        · dsimp only
          have h1 : fallbackCallCount (calls ++
              [(MODELS_PRIMARY, CallRes.fail e), (MODELS_FALLBACK, CallRes.fail e2)]) =
              fallbackCallCount calls + 1 := by
            simp [fallbackCallCount, List.countP_append, List.countP_cons,
              primary_beq_fallback]
          have h2 : fallbackNoticeCount (sends ++ [SumEvt.chunkProgress i total] ++
              [SumEvt.fallbackNoticeChunk i]) = fallbackNoticeCount sends + 1 := by
            simp [fallbackNoticeCount, List.countP_append, List.countP_cons,
              SumEvt.isFallbackNotice]
          omega

/-- The direct path on a successful first call (lines 411–417). -/
theorem summarizeRun_direct_ok (t : String) (env : CallEnv) (c : String)
    (hl : t.length ≤ CHUNK_THRESHOLD) (h0 : env 0 = CallRes.ok c) :
    summarizeRun t env =
      ⟨[(MODELS_PRIMARY, CallRes.ok c)], [], Except.ok (mkSummaryResult c)⟩ := by
  unfold summarizeRun
  rw [if_pos hl, h0]

/-- The direct path on a rate-limited first call and successful fallback
(lines 418–433). -/
theorem summarizeRun_direct_rl_ok (t : String) (env : CallEnv) (e : ApiError) (c : String)
    (hl : t.length ≤ CHUNK_THRESHOLD) (h0 : env 0 = CallRes.fail e)
    (hr : isRateLimited e = true) (h1 : env 1 = CallRes.ok c) :
    summarizeRun t env =
      ⟨[(MODELS_PRIMARY, CallRes.fail e), (MODELS_FALLBACK, CallRes.ok c)],
       [SumEvt.fallbackNoticeDirect (extractRetryHint e.msg)],
       Except.ok (mkSummaryResult c)⟩ := by
  unfold summarizeRun
  rw [if_pos hl, h0]
  dsimp only
  rw [if_pos hr, h1]

/-- The direct path on two consecutive rate-limited calls: the fallback
failure escapes to the outer catch (lines 418–433 and 442–455). -/
theorem summarizeRun_direct_rl_fail (t : String) (env : CallEnv) (e e2 : ApiError)
    (hl : t.length ≤ CHUNK_THRESHOLD) (h0 : env 0 = CallRes.fail e)
    (hr : isRateLimited e = true) (h1 : env 1 = CallRes.fail e2) :
    summarizeRun t env =
      ⟨[(MODELS_PRIMARY, CallRes.fail e), (MODELS_FALLBACK, CallRes.fail e2)],
       [SumEvt.fallbackNoticeDirect (extractRetryHint e.msg)],
       Except.error (summarizeCatch e2)⟩ := by
  unfold summarizeRun
  rw [if_pos hl, h0]
  dsimp only
  rw [if_pos hr, h1]

/-- The direct path on a non-rate-limited failure: no fallback, the error
escapes at once (lines 418–433 and 442–455). -/
theorem summarizeRun_direct_other (t : String) (env : CallEnv) (e : ApiError)
    (hl : t.length ≤ CHUNK_THRESHOLD) (h0 : env 0 = CallRes.fail e)
    (hr : isRateLimited e = false) :
    summarizeRun t env =
      ⟨[(MODELS_PRIMARY, CallRes.fail e)], [], Except.error (summarizeCatch e)⟩ := by
  unfold summarizeRun
  rw [if_pos hl, h0]
  dsimp only
  rw [if_neg (by simp [hr])]

/-- The chunked path written through `reduceLoop` (lines 341–407). -/
theorem summarizeRun_chunked_out (t : String) (env : CallEnv)
    (hl : ¬ t.length ≤ CHUNK_THRESHOLD) :
    summarizeRun t env =
      match (reduceLoop t env).out with
      | Except.error e =>
          ⟨(reduceLoop t env).calls, (reduceLoop t env).sends,
           Except.error (summarizeCatch e)⟩
      | Except.ok _ =>
        match env (reduceLoop t env).nextCall with
        | CallRes.ok c =>
            ⟨(reduceLoop t env).calls ++ [(MODELS_PRIMARY, env (reduceLoop t env).nextCall)],
             (reduceLoop t env).sends ++ [SumEvt.mergeNotice],
             Except.ok (mkSummaryResult c)⟩
        | CallRes.fail e =>
            ⟨(reduceLoop t env).calls ++ [(MODELS_PRIMARY, env (reduceLoop t env).nextCall)],
             (reduceLoop t env).sends ++ [SumEvt.mergeNotice],
             Except.error (summarizeCatch e)⟩ := by
  unfold summarizeRun reduceLoop
  rw [if_neg hl]

/-- C3 counterexample.  Two defects against the claim.  (i) Two consecutive
rate-limit responses whose rate-limiting is signalled by the error code only
(no HTTP 429 status) do not raise the `QuotaExhausted`-class message: the
outer catch keys on `e?.status === 429` alone, so the job fails with the
`SummarizationFailed`-class message instead.  (ii) The final reduce call of
the chunked path has no fallback at all: a 429 on it is never retried on the
fallback model and sends no fallback notice, even though the fallback (call
index 1) would succeed. -/
theorem c3_counterexample :
    (summarizeRun "hello" rateCodeEnv).result = Except.error "文本分析失败: limited" ∧
    isRateLimited ⟨false, true, "limited"⟩ = true ∧
    "文本分析失败: limited" ≠ quotaMsg (extractRetryHint "limited") ∧
    (summarizeRun ⟨List.replicate 15001 ' '⟩ reduceLoopEnvFirst429).calls =
      [(MODELS_PRIMARY, CallRes.fail ⟨true, false, "r"⟩)] ∧
    isRateLimited ⟨true, false, "r"⟩ = true ∧
    reduceLoopEnvFirst429 1 = CallRes.ok "y" ∧
    fallbackNoticeCount
      (summarizeRun ⟨List.replicate 15001 ' '⟩ reduceLoopEnvFirst429).sends = 0 := by
  have hlen : (⟨List.replicate 15001 ' '⟩ : String).length = 15001 := by
    show (List.replicate 15001 ' ').length = 15001
    rw [List.length_replicate]
  have hrl : reduceLoop ⟨List.replicate 15001 ' '⟩ reduceLoopEnvFirst429 =
      ⟨0, [], [SumEvt.longTextNotice 15], Except.ok []⟩ := by
    unfold reduceLoop
    rw [c10_spaces_chunks, hlen]
    rfl
  have hrun : summarizeRun ⟨List.replicate 15001 ' '⟩ reduceLoopEnvFirst429 =
      ⟨[(MODELS_PRIMARY, CallRes.fail ⟨true, false, "r"⟩)],
       [SumEvt.longTextNotice 15, SumEvt.mergeNotice],
       Except.error (summarizeCatch ⟨true, false, "r"⟩)⟩ := by
    rw [summarizeRun_chunked_out _ _ (by rw [hlen]; norm_num [CHUNK_THRESHOLD]), hrl]
    rfl
  refine ⟨by decide, by decide, by decide, ?_, by decide, by decide, ?_⟩
  · rw [hrun]
  · rw [hrun]
    decide

/-- C3 (amended).  The call trace of every summarization run is disciplined:
a fallback-model call happens only immediately after a rate-limited
primary-model call, exactly once per such failure, with exactly one
caller-visible fallback notice per fallback call.  On the direct path, a
non-rate-limited failure propagates at once as the `SummarizationFailed`
message, a rate-limited primary retries once on the fallback with one
notice, and a fallback failure escapes with the quota message exactly when
it carries the HTTP 429 status (a code-only rate limit yields the
`SummarizationFailed` message).  After a successful chunk loop the final
reduce call is made on the primary model with no fallback of its own and no
further notice.  A `done` event is emitted only when summarization
succeeded. -/
theorem c3_amended :
    (∀ (t : String) (env : CallEnv), GoodCalls (summarizeRun t env).calls) ∧
    (∀ (t : String) (env : CallEnv),
      fallbackNoticeCount (summarizeRun t env).sends =
        fallbackCallCount (summarizeRun t env).calls) ∧
    (∀ (t : String) (env : CallEnv) (e : ApiError), t.length ≤ CHUNK_THRESHOLD →
      env 0 = CallRes.fail e →
      (isRateLimited e = false →
        (summarizeRun t env).calls = [(MODELS_PRIMARY, CallRes.fail e)] ∧
        (summarizeRun t env).sends = [] ∧
        (summarizeRun t env).result = Except.error (failMsg e.msg)) ∧
      (isRateLimited e = true →
        (∀ c, env 1 = CallRes.ok c →
          (summarizeRun t env).calls =
            [(MODELS_PRIMARY, CallRes.fail e), (MODELS_FALLBACK, CallRes.ok c)] ∧
          (summarizeRun t env).sends =
            [SumEvt.fallbackNoticeDirect (extractRetryHint e.msg)] ∧
          (summarizeRun t env).result = Except.ok (mkSummaryResult c)) ∧
        (∀ e2, env 1 = CallRes.fail e2 →
          (summarizeRun t env).calls =
            [(MODELS_PRIMARY, CallRes.fail e), (MODELS_FALLBACK, CallRes.fail e2)] ∧
          (summarizeRun t env).sends =
            [SumEvt.fallbackNoticeDirect (extractRetryHint e.msg)] ∧
          (summarizeRun t env).result = Except.error
            (if e2.status429 = true then quotaMsg (extractRetryHint e2.msg)
             else failMsg e2.msg)))) ∧
    (∀ (t : String) (env : CallEnv) (sums : List String), CHUNK_THRESHOLD < t.length →
      (reduceLoop t env).out = Except.ok sums →
      (summarizeRun t env).calls =
        (reduceLoop t env).calls ++ [(MODELS_PRIMARY, env (reduceLoop t env).nextCall)] ∧
      (summarizeRun t env).sends = (reduceLoop t env).sends ++ [SumEvt.mergeNotice]) ∧
    (∀ env : JobEnv, hasDoneEvt (postRun env).actions = true →
      ∃ transcript res, (summarizeRun transcript env.callEnv).result = Except.ok res) := by
  refine ⟨?_, ?_, ?_, ?_, ?_⟩
  · intro t env
    by_cases hl : t.length ≤ CHUNK_THRESHOLD
    · rcases h0 : env 0 with c | e
      · rw [summarizeRun_direct_ok t env c hl h0]
        exact GoodCalls.prim _ _ GoodCalls.nil
      · rcases hr : isRateLimited e with _ | _
        · rw [summarizeRun_direct_other t env e hl h0 hr]
          exact GoodCalls.prim _ _ GoodCalls.nil
        · rcases h1 : env 1 with c | e2
          · rw [summarizeRun_direct_rl_ok t env e c hl h0 hr h1]
            exact GoodCalls.fb e _ _ hr GoodCalls.nil
          · rw [summarizeRun_direct_rl_fail t env e e2 hl h0 hr h1]
            exact GoodCalls.fb e _ _ hr GoodCalls.nil
    · rw [summarizeRun_chunked_out t env hl]
      have hg : GoodCalls (reduceLoop t env).calls :=
        chunkLoop_good env (splitTranscriptIntoChunks t 8000).length
          (splitTranscriptIntoChunks t 8000) 0 0 []
          [SumEvt.longTextNotice ((t.length + 500) / 1000)] [] GoodCalls.nil
      rcases hlp : (reduceLoop t env).out with e | sums
      · exact hg
      · dsimp only
        rcases h2 : env (reduceLoop t env).nextCall with c | e
        · exact GoodCalls_append hg (GoodCalls.prim _ _ GoodCalls.nil)
        · exact GoodCalls_append hg (GoodCalls.prim _ _ GoodCalls.nil)
  · intro t env
    by_cases hl : t.length ≤ CHUNK_THRESHOLD
    · rcases h0 : env 0 with c | e
      · rw [summarizeRun_direct_ok t env c hl h0]
        simp [fallbackNoticeCount, fallbackCallCount, List.countP_cons,
          primary_beq_fallback]
      · rcases hr : isRateLimited e with _ | _
        · rw [summarizeRun_direct_other t env e hl h0 hr]
          simp [fallbackNoticeCount, fallbackCallCount, List.countP_cons,
            primary_beq_fallback]
        · rcases h1 : env 1 with c | e2
          · rw [summarizeRun_direct_rl_ok t env e c hl h0 hr h1]
            simp [fallbackNoticeCount, fallbackCallCount, List.countP_cons,
              SumEvt.isFallbackNotice, primary_beq_fallback]
          · rw [summarizeRun_direct_rl_fail t env e e2 hl h0 hr h1]
            simp [fallbackNoticeCount, fallbackCallCount, List.countP_cons,
              SumEvt.isFallbackNotice, primary_beq_fallback]
    · rw [summarizeRun_chunked_out t env hl]
      have hb2 : fallbackNoticeCount (reduceLoop t env).sends =
          fallbackCallCount (reduceLoop t env).calls := by
        unfold reduceLoop
        have hb := chunkLoop_balance env (splitTranscriptIntoChunks t 8000).length
          (splitTranscriptIntoChunks t 8000) 0 0 []
          [SumEvt.longTextNotice ((t.length + 500) / 1000)] []
        rw [show fallbackCallCount [] = 0 from rfl] at hb
        rw [show fallbackNoticeCount
            [SumEvt.longTextNotice ((t.length + 500) / 1000)] = 0 from rfl] at hb
        omega
      rcases hlp : (reduceLoop t env).out with e | sums
      · exact hb2
      · dsimp only
        rcases h2 : env (reduceLoop t env).nextCall with c | e
        · dsimp only
          simp only [fallbackNoticeCount, fallbackCallCount, List.countP_append] at hb2 ⊢
          rw [show List.countP SumEvt.isFallbackNotice [SumEvt.mergeNotice] = 0 from rfl]
          rw [countP_primary_single (CallRes.ok c)]
          omega
        · dsimp only
          simp only [fallbackNoticeCount, fallbackCallCount, List.countP_append] at hb2 ⊢
          rw [show List.countP SumEvt.isFallbackNotice [SumEvt.mergeNotice] = 0 from rfl]
          rw [countP_primary_single (CallRes.fail e)]
          omega
  · intro t env e hl h0
    constructor
    · intro hr
      rw [summarizeRun_direct_other t env e hl h0 hr]
      refine ⟨rfl, rfl, ?_⟩
      have h429 : e.status429 = false := by
        unfold isRateLimited at hr
        rcases h : e.status429 with _ | _
        · rfl
        · rw [h] at hr
          simp at hr
      show Except.error (summarizeCatch e) = _
      unfold summarizeCatch
      rw [if_neg (by simp [h429])]
    · intro hr
      constructor
      · intro c h1
        rw [summarizeRun_direct_rl_ok t env e c hl h0 hr h1]
        exact ⟨rfl, rfl, rfl⟩
      · intro e2 h1
        rw [summarizeRun_direct_rl_fail t env e e2 hl h0 hr h1]
        refine ⟨rfl, rfl, ?_⟩
        show Except.error (summarizeCatch e2) = _
        unfold summarizeCatch
        rfl
  · intro t env sums hl hout
    rw [summarizeRun_chunked_out t env (by omega), hout]
    dsimp only
    rcases h2 : env (reduceLoop t env).nextCall with c | e
    · exact ⟨rfl, rfl⟩
    · exact ⟨rfl, rfl⟩
  · intro env hdone
    obtain ⟨au, ti, ext, transcript, res, hp, hd, htr, hso⟩ := postRun_done_cases env hdone
    exact ⟨transcript, res, hso⟩

/-- Witness for C3 (amended): the direct path with two code-only rate
limits draws the `SummarizationFailed` message (the if-condition is false),
and the call trace is disciplined. -/
theorem c3_amended_witness :
    (summarizeRun "hello" rateCodeEnv).result =
      Except.error (if (⟨false, true, "limited"⟩ : ApiError).status429 = true
        then quotaMsg (extractRetryHint (⟨false, true, "limited"⟩ : ApiError).msg)
        else failMsg (⟨false, true, "limited"⟩ : ApiError).msg) ∧
    GoodCalls (summarizeRun "hello" rateCodeEnv).calls := by
  refine ⟨?_, c3_amended.1 "hello" rateCodeEnv⟩
  have h := ((c3_amended.2.2.1 "hello" rateCodeEnv ⟨false, true, "limited"⟩
      (by decide) rfl).2 (by decide)).2 ⟨false, true, "limited"⟩ rfl
  exact h.2.2

/-- One successful attempt ends the retry loop at once. -/
theorem transcribeSingleAux_ok {m a : Nat} {t : String}
    {res : Nat → Except TransError String} (h : a ≤ m) (hr : res a = Except.ok t) :
    transcribeSingleAux m res a = (a, [], Except.ok t) := by
  unfold transcribeSingleAux
  rw [dif_pos h, hr]

/-- A failure that is not a retriable network error — or one on the last
allowed attempt — is rethrown at once. -/
theorem transcribeSingleAux_stop {m a : Nat} {e : TransError}
    {res : Nat → Except TransError String} (h : a ≤ m) (hr : res a = Except.error e)
    (hcond : ¬ (e.isNetwork = true ∧ a < m)) :
    transcribeSingleAux m res a = (a, [], Except.error e) := by
  unfold transcribeSingleAux
  rw [dif_pos h, hr]
  dsimp only
  rw [if_neg hcond]

/-- A network failure below the attempt cap sleeps the backoff and
retries. -/
theorem transcribeSingleAux_retry {m a : Nat} {e : TransError}
    {res : Nat → Except TransError String} (h : a ≤ m) (hr : res a = Except.error e)
    (hnet : e.isNetwork = true) (hlt : a < m) :
    transcribeSingleAux m res a =
      ((transcribeSingleAux m res (a + 1)).1,
       backoffDelay a :: (transcribeSingleAux m res (a + 1)).2.1,
       (transcribeSingleAux m res (a + 1)).2.2) := by
  conv_lhs => rw [transcribeSingleAux]
  rw [dif_pos h, hr]
  dsimp only
  rw [if_pos ⟨hnet, hlt⟩]

/-- C4.  `transcribeSingleFile` makes up to 3 attempts: success returns at
once; a non-network failure propagates immediately without retry; a network
failure sleeps the doubling backoff (1s, then 2s; the next double, 4s, is
never reached with 3 attempts) and retries; the third failure — network or
not — propagates, ending the job's transcription with that error. -/
theorem c4_transcription_retry (res : Nat → Except TransError String) :
    (transcribeSingleRun res).1 ≤ 3 ∧
    (∀ t, res 1 = Except.ok t →
      transcribeSingleRun res = (1, [], Except.ok t)) ∧
    (∀ e, res 1 = Except.error e → e.isNetwork = false →
      transcribeSingleRun res = (1, [], Except.error e)) ∧
    (∀ e t, res 1 = Except.error e → e.isNetwork = true → res 2 = Except.ok t →
      transcribeSingleRun res = (2, [backoffDelay 1], Except.ok t)) ∧
    (∀ e e2, res 1 = Except.error e → e.isNetwork = true →
      res 2 = Except.error e2 → e2.isNetwork = false →
      transcribeSingleRun res = (2, [backoffDelay 1], Except.error e2)) ∧
    (∀ e e2 t, res 1 = Except.error e → e.isNetwork = true →
      res 2 = Except.error e2 → e2.isNetwork = true → res 3 = Except.ok t →
      transcribeSingleRun res = (3, [backoffDelay 1, backoffDelay 2], Except.ok t)) ∧
    (∀ e e2 e3, res 1 = Except.error e → e.isNetwork = true →
      res 2 = Except.error e2 → e2.isNetwork = true → res 3 = Except.error e3 →
      transcribeSingleRun res = (3, [backoffDelay 1, backoffDelay 2], Except.error e3)) ∧
    (backoffDelay 1 = 1000 ∧ backoffDelay 2 = 2000 ∧ backoffDelay 3 = 4000) := by
  refine ⟨?_, ?_, ?_, ?_, ?_, ?_, ?_, rfl, rfl, rfl⟩
  · unfold transcribeSingleRun
    rcases h1 : res 1 with e1 | t1
    · rcases hn1 : e1.isNetwork with _ | _
      · rw [transcribeSingleAux_stop (by omega) h1 (by simp [hn1])]
        simp
      · rw [transcribeSingleAux_retry (by omega) h1 hn1 (by omega)]
        rcases h2 : res 2 with e2 | t2
        · rcases hn2 : e2.isNetwork with _ | _
          · rw [transcribeSingleAux_stop (show 2 ≤ 3 by omega) h2 (by simp [hn2])]
            simp
          · rw [transcribeSingleAux_retry (show 2 ≤ 3 by omega) h2 hn2 (by omega)]
            rcases h3 : res 3 with e3 | t3
            · rw [transcribeSingleAux_stop (show 3 ≤ 3 by omega) h3 (by omega)]
            · rw [transcribeSingleAux_ok (show 3 ≤ 3 by omega) h3]
        · rw [transcribeSingleAux_ok (show 2 ≤ 3 by omega) h2]
          simp
    · rw [transcribeSingleAux_ok (by omega) h1]
      simp
  · intro t ht
    unfold transcribeSingleRun
    rw [transcribeSingleAux_ok (by omega) ht]
  · intro e he hn
    unfold transcribeSingleRun
    rw [transcribeSingleAux_stop (by omega) he (by simp [hn])]
  · intro e t he hn h2
    unfold transcribeSingleRun
    rw [transcribeSingleAux_retry (by omega) he hn (by omega),
      transcribeSingleAux_ok (show 2 ≤ 3 by omega) h2]
  · intro e e2 he hn h2 hn2
    unfold transcribeSingleRun
    rw [transcribeSingleAux_retry (by omega) he hn (by omega),
      transcribeSingleAux_stop (show 2 ≤ 3 by omega) h2 (by simp [hn2])]
  · intro e e2 t he hn h2 hn2 h3
    unfold transcribeSingleRun
    rw [transcribeSingleAux_retry (by omega) he hn (by omega),
      transcribeSingleAux_retry (show 2 ≤ 3 by omega) h2 hn2 (by omega),
      transcribeSingleAux_ok (show 3 ≤ 3 by omega) h3]
  · intro e e2 e3 he hn h2 hn2 h3
    unfold transcribeSingleRun
    rw [transcribeSingleAux_retry (by omega) he hn (by omega),
      transcribeSingleAux_retry (show 2 ≤ 3 by omega) h2 hn2 (by omega),
      transcribeSingleAux_stop (show 3 ≤ 3 by omega) h3 (by omega)]

/-- Witness for C4: two connection resets then a success — three attempts,
backoffs 1s then 2s. -/
theorem c4_transcription_retry_witness :
    transcribeSingleRun
        (fun a => if a < 3 then Except.error ⟨true, "ECONNRESET"⟩ else Except.ok "hi") =
      (3, [backoffDelay 1, backoffDelay 2], Except.ok "hi") :=
  (c4_transcription_retry
      (fun a => if a < 3 then Except.error ⟨true, "ECONNRESET"⟩ else Except.ok "hi")
    ).2.2.2.2.2.1 ⟨true, "ECONNRESET"⟩ ⟨true, "ECONNRESET"⟩ "hi" rfl rfl rfl rfl rfl

end TalkEssence
